import Mathlib

/-!
Verification development for the Sensory Ink Core
(`GeminiInkRenderer` and friends).

The document model (points, strokes, undo/redo action log, camera,
serialization) is embedded generically over a linear ordered field `K`:
JavaScript numbers are modelled as exact field elements, mutation as
explicit state passing, JS arrays as `List`s (array `push`/`pop` at the
end of an array is modelled with the stack top at the HEAD of the Lean
list, so `push a` is `a :: s` and `pop` takes the head), and the JS
`Set<number>` of selected indices as a duplicate-free `List Nat` in
insertion order.  Geometry that needs `Math.sqrt` / `Math.atan2`
(scratch detection, shape snapping, the width model) is instantiated at
`K := ℝ` using `Real.sqrt` and `Complex.arg`.
-/

namespace Nuance

/-- Grid styles of the renderer (`GridType` in the source). -/
inductive GridType where
  | none | square | dot | ruled | isometric | graph | hex
deriving DecidableEq, Repr

/-- A pointer sample in world coordinates (`Point` in the source). -/
structure Point (K : Type) where
  x : K
  y : K
  pressure : K
  timestamp : K
  tiltX : K
  tiltY : K
deriving DecidableEq, Repr

/-- Per-stroke render configuration (`RenderConfig` in the source). -/
structure RenderConfig (K : Type) where
  baseStrokeWidth : K
  minWidth : K
  maxWidth : K
  smoothness : K
  velocityInfluence : K
  pressureInfluence : K
  color : String
  opacity : K
  streamline : K
deriving DecidableEq, Repr

/-- A committed stroke: point list plus frozen config (`Stroke`). -/
structure Stroke (K : Type) where
  points : List (Point K)
  config : RenderConfig K
deriving DecidableEq, Repr

/-- The four kinds of entries of the undo/redo logs (`UndoAction`). -/
inductive UndoAction (K : Type) where
  | addStroke (stroke : Stroke K)
  | delete (deletedStrokes : List (Nat × Stroke K))
  | recolor (oldConfigs : List (Nat × String)) (newColor : String)
  | move (indices : List Nat) (dx dy : K)
deriving DecidableEq, Repr

/-- Camera state: pan `(x, y)` and `zoom`, with the transform
`screen = (world + pan) * zoom` (the `camera` field of the renderer). -/
structure Camera (K : Type) where
  x : K
  y : K
  zoom : K
deriving DecidableEq, Repr

/-- The serialized drawing `{version, gridType, strokes}`.  The two
payload fields are `Option`s so that a JS value whose `strokes` is not
an array (respectively whose `gridType` is absent / falsy) can be
represented; `loadStrokes` receives an `Option SerializedDrawing` whose
`none` models a `null`/`undefined` argument. -/
structure SerializedDrawing (K : Type) where
  version : Nat
  gridType : Option GridType
  strokes : Option (List (Stroke K))
deriving DecidableEq, Repr

/-- The mutable state of `GeminiInkRenderer` that the verified
operations touch: the document (stroke list), the undo and redo stacks,
the selection, the grid type, the camera, the active (uncommitted)
point buffer, the drawing flag, the drag bookkeeping of move-selected,
the current config and the shape-snap dwell timestamp. -/
structure DocState (K : Type) where
  strokes : List (Stroke K)
  undoStack : List (UndoAction K)
  redoStack : List (UndoAction K)
  selectedIndices : List Nat
  gridType : GridType
  camera : Camera K
  points : List (Point K)
  isDrawing : Bool
  isDragging : Bool
  dragStartWorld : Option (K × K)
  dragCurrentWorld : Option (K × K)
  config : RenderConfig K
  lastMoveTimestamp : K
deriving DecidableEq, Repr

section ListHelpers

variable {β : Type}

/-- JS `array.splice(i, 0, a)`: insert `a` at index `i`; an index past
the end is clamped to the end (the element is appended). -/
def insertAt : List β → Nat → β → List β
  | l, 0, a => a :: l
  | [], _ + 1, a => [a]
  | b :: l, n + 1, a => b :: insertAt l n a

/-- JS `array.splice(i, 1)`: remove the element at index `i`; an index
past the end removes nothing. -/
def eraseAt : List β → Nat → List β
  | [], _ => []
  | _ :: l, 0 => l
  | b :: l, n + 1 => b :: eraseAt l n

/-- Apply `f` to the element at index `i`, if any (this models the JS
pattern `if (arr[i]) { mutate arr[i] }`: an out-of-range index is a
no-op). -/
def modifyAt (f : β → β) : List β → Nat → List β
  | [], _ => []
  | b :: l, 0 => f b :: l
  | b :: l, n + 1 => b :: modifyAt f l n

/-- Insertion step of the ascending-by-index insertion sort used to
model `array.sort((a, b) => a.index - b.index)`. -/
def insertAscStep {γ : Type} (p : Nat × γ) : List (Nat × γ) → List (Nat × γ)
  | [] => [p]
  | q :: t => if p.1 < q.1 then p :: q :: t else q :: insertAscStep p t

/-- Sort index/value pairs ascending by index
(`[...].sort((a, b) => a.index - b.index)` in `undo`). -/
def sortByIndexAsc {γ : Type} : List (Nat × γ) → List (Nat × γ)
  | [] => []
  | p :: t => insertAscStep p (sortByIndexAsc t)

/-- Insertion step of the descending insertion sort used to model
`array.sort((a, b) => b - a)`. -/
def insertDescStep (n : Nat) : List Nat → List Nat
  | [] => [n]
  | m :: t => if n > m then n :: m :: t else m :: insertDescStep n t

/-- Sort indices descending (`.sort((a, b) => b - a)` in `redo`,
`deleteSelected` and `eraseStrokesUnderScratch`). -/
def sortDesc : List Nat → List Nat
  | [] => []
  | n :: t => insertDescStep n (sortDesc t)

end ListHelpers

section DocOps

variable {K : Type} [LinearOrderedField K]

/-- Translate every point of a stroke by `(dx, dy)`. -/
def translateStroke (dx dy : K) (s : Stroke K) : Stroke K :=
  { s with points := s.points.map (fun p => { p with x := p.x + dx, y := p.y + dy }) }

/-- Replace the color of a stroke's config
(`config = { ...config, color }` in the source). -/
def setStrokeColor (c : String) (s : Stroke K) : Stroke K :=
  { s with config := { s.config with color := c } }

/-- The mutation `undo()` performs on the stroke list for one popped
action: pop the last stroke / re-insert deleted strokes ascending by
index / restore old colors / subtract the move delta. -/
def applyUndo (strokes : List (Stroke K)) : UndoAction K → List (Stroke K)
  | .addStroke _ => strokes.dropLast
  | .delete ds =>
      (sortByIndexAsc ds).foldl (fun acc p => insertAt acc p.1 p.2) strokes
  | .recolor oldConfigs _ =>
      oldConfigs.foldl (fun acc p => modifyAt (setStrokeColor p.2) acc p.1) strokes
  | .move indices dx dy =>
      indices.foldl (fun acc i => modifyAt (translateStroke (-dx) (-dy)) acc i) strokes

/-- The mutation `redo()` performs on the stroke list for one popped
action: push the stroke / delete at indices sorted descending / apply
the new color / add the move delta. -/
def applyRedo (strokes : List (Stroke K)) : UndoAction K → List (Stroke K)
  | .addStroke s => strokes ++ [s]
  | .delete ds =>
      (sortDesc (ds.map Prod.fst)).foldl (fun acc i => eraseAt acc i) strokes
  | .recolor oldConfigs newColor =>
      oldConfigs.foldl (fun acc p => modifyAt (setStrokeColor newColor) acc p.1) strokes
  | .move indices dx dy =>
      indices.foldl (fun acc i => modifyAt (translateStroke dx dy) acc i) strokes

/-- `pushUndoAction`: push onto the undo stack and unconditionally
clear the redo stack. -/
def pushUndoAction (s : DocState K) (a : UndoAction K) : DocState K :=
  { s with undoStack := a :: s.undoStack, redoStack := [] }

/-- `undo()`: pop the undo stack, invert the action on the stroke
list, push the action onto the redo stack; a no-op when the undo stack
is empty (the source returns `false`). -/
def undoFn (s : DocState K) : DocState K :=
  match s.undoStack with
  | [] => s
  | a :: rest =>
      { s with
        strokes := applyUndo s.strokes a
        undoStack := rest
        redoStack := a :: s.redoStack }

/-- `redo()`: pop the redo stack, re-apply the action on the stroke
list, push the action onto the undo stack; a no-op when the redo stack
is empty. -/
def redoFn (s : DocState K) : DocState K :=
  match s.redoStack with
  | [] => s
  | a :: rest =>
      { s with
        strokes := applyRedo s.strokes a
        undoStack := a :: s.undoStack
        redoStack := rest }

/-- `canUndo()`. -/
def canUndo (s : DocState K) : Bool := !s.undoStack.isEmpty

/-- `canRedo()`. -/
def canRedo (s : DocState K) : Bool := !s.redoStack.isEmpty

/-- `clearSelection()`: clear the selected set and the drag state. -/
def clearSelection (s : DocState K) : DocState K :=
  { s with
    selectedIndices := []
    isDragging := false
    dragStartWorld := none
    dragCurrentWorld := none }

/-- `exportStrokes()`: emit `{version: 1, gridType, strokes}` by deep
copy (deep copy is the identity under value semantics). -/
def exportStrokes (s : DocState K) : SerializedDrawing K :=
  { version := 1
    gridType := some s.gridType
    strokes := some s.strokes }

/-- `loadStrokes(data)`: bail out when `data` is `null`/`undefined` or
`data.strokes` is not an array; otherwise replace the document, clear
the active points, both stacks and the selection, and set the grid
type when `data.gridType` is present (truthy). -/
def loadStrokes (s : DocState K) (data : Option (SerializedDrawing K)) : DocState K :=
  match data with
  | Option.none => s
  | some d =>
      match d.strokes with
      | Option.none => s
      | some strokes =>
          let s := { s with
            strokes := strokes
            points := []
            redoStack := []
            undoStack := [] }
          let s := clearSelection s
          match d.gridType with
          | some g => { s with gridType := g }
          | Option.none => s

/-- `screenToWorld(sx, sy)`: `world = screen / zoom - pan`. -/
def screenToWorld (cam : Camera K) (sx sy : K) : K × K :=
  (sx / cam.zoom - cam.x, sy / cam.zoom - cam.y)

/-- `zoom(scaleFactor, screenX, screenY)`: clamp the new zoom level to
`[0.2, 5.0]` and re-derive the pan so the world point that was under
the pivot stays under the pivot. -/
def zoomOp (cam : Camera K) (scaleFactor sx sy : K) : Camera K :=
  let worldX := sx / cam.zoom - cam.x
  let worldY := sy / cam.zoom - cam.y
  let newZoom := max (1 / 5) (min 5 (cam.zoom * scaleFactor))
  { x := sx / newZoom - worldX
    y := sy / newZoom - worldY
    zoom := newZoom }

instance : Inhabited (Point K) :=
  ⟨⟨0, 0, 0, 0, 0, 0⟩⟩

instance : Inhabited (RenderConfig K) :=
  ⟨⟨0, 0, 0, 0, 0, 0, r"", 0, 0⟩⟩

instance : Inhabited (Stroke K) :=
  ⟨⟨[], default⟩⟩

/-- `deleteSelected()`: if the selection is nonempty, remove the
selected strokes (indices sorted descending), record them with their
original indices in a single `delete` action, and clear the
selection. -/
def deleteSelected (s : DocState K) : DocState K :=
  if s.selectedIndices = [] then s
  else
    let indices := sortDesc s.selectedIndices
    let deletedStrokes := indices.map (fun i => (i, s.strokes.getD i default))
    let strokes := indices.foldl (fun acc i => eraseAt acc i) s.strokes
    clearSelection (pushUndoAction { s with strokes := strokes } (.delete deletedStrokes))

/-- `changeSelectedColor(newColor)`: if the selection is nonempty,
record each selected stroke's old color, replace the configs with the
new color, and push a single `recolor` action. -/
def changeSelectedColor (s : DocState K) (newColor : String) : DocState K :=
  if s.selectedIndices = [] then s
  else
    let oldConfigs := s.selectedIndices.map
      (fun i => (i, (s.strokes.getD i default).config.color))
    let strokes := s.selectedIndices.foldl
      (fun acc i => modifyAt (setStrokeColor newColor) acc i) s.strokes
    pushUndoAction { s with strokes := strokes } (.recolor oldConfigs newColor)

/-- `endMoveSelected()`: when a drag is active, log one `move` action
with the total displacement iff `|dx| > 0.5` or `|dy| > 0.5`, then
reset the drag state.  (The strokes themselves were already translated
incrementally by `updateMoveSelected`.) -/
def endMoveSelected (s : DocState K) : DocState K :=
  match s.isDragging, s.dragStartWorld, s.dragCurrentWorld with
  | true, some start, some cur =>
      let totalDx := cur.1 - start.1
      let totalDy := cur.2 - start.2
      let s :=
        if 1 / 2 < |totalDx| ∨ 1 / 2 < |totalDy| then
          pushUndoAction s (.move s.selectedIndices totalDx totalDy)
        else s
      { s with isDragging := false, dragStartWorld := none, dragCurrentWorld := none }
  | _, _, _ => s

end DocOps

section DelOKDef

variable {γ : Type}

/-- Validity of a list of (index, value) pairs for sequential insertion
into a list of length `n`: each insertion index is at most the length
of the list at the moment it is inserted. -/
def DelOK : List (Nat × γ) → Nat → Prop
  | [], _ => True
  | p :: t, n => p.1 ≤ n ∧ DelOK t (n + 1)

end DelOKDef

section StateDefs

variable {K : Type} [LinearOrderedField K]

/-- Conditions under which a popped undo action can be undone and then
redone back to the identical stroke list: the action must actually fit
the document it sits on top of (it was produced by a commit from that
document). -/
def Fits (l : List (Stroke K)) : UndoAction K → Prop
  | .addStroke st => ∃ l', l = l' ++ [st]
  | .delete ds =>
      sortDesc (ds.map Prod.fst) = ((sortByIndexAsc ds).map Prod.fst).reverse ∧
      DelOK (sortByIndexAsc ds) l.length
  | .recolor oldConfigs newColor =>
      ∀ p ∈ oldConfigs, p.1 < l.length →
        (l.getD p.1 default).config.color = newColor
  | .move _ _ _ => True

/-- The commit performed at the end of `endStroke` (lines 2006-2008 of
the renderer): append the new stroke and log an `addStroke` action. -/
def commitAddStroke (s : DocState K) (st : Stroke K) : DocState K :=
  pushUndoAction { s with strokes := s.strokes ++ [st] } (.addStroke st)

/-- The compound effect of a committed `startMoveSelected` /
`updateMoveSelected`* / `endMoveSelected` drag whose incremental world
deltas sum (exactly, in field arithmetic) to `(dx, dy)`: every point of
every selected stroke is translated by the total delta and one `move`
action is logged. -/
def commitMoveSelected (s : DocState K) (dx dy : K) : DocState K :=
  pushUndoAction
    { s with strokes := (s.selectedIndices.foldl
        (fun acc i => modifyAt (translateStroke dx dy) acc i) s.strokes) }
    (.move s.selectedIndices dx dy)

/-- Every action of the undo stack fits the document it sits on:
popping and re-applying the actions in order is meaningful.  This is
the invariant maintained by the commit operations. -/
def StackOK : List (Stroke K) → List (UndoAction K) → Prop
  | _, [] => True
  | l, a :: rest => Fits l a ∧ StackOK (applyUndo l a) rest

/-- Documents reachable from a state with empty undo/redo logs (a fresh
document, or one just produced by `loadStrokes`) by sequences of
committed user actions: committing a stroke, deleting the (valid,
duplicate-free) selection, recoloring the selection, and committing a
move of the selection whose total displacement exceeds the 0.5 world
unit threshold. -/
inductive Reachable : DocState K → Prop where
  | base (s : DocState K) (hu : s.undoStack = []) (hr : s.redoStack = []) : Reachable s
  | stepAdd (s : DocState K) (st : Stroke K) (h : Reachable s) :
      Reachable (commitAddStroke s st)
  | stepDelete (s : DocState K) (h : Reachable s) (hne : s.selectedIndices ≠ [])
      (hnd : s.selectedIndices.Nodup)
      (hb : ∀ i ∈ s.selectedIndices, i < s.strokes.length) :
      Reachable (deleteSelected s)
  | stepRecolor (s : DocState K) (c : String) (h : Reachable s)
      (hne : s.selectedIndices ≠ []) (hnd : s.selectedIndices.Nodup)
      (hb : ∀ i ∈ s.selectedIndices, i < s.strokes.length) :
      Reachable (changeSelectedColor s c)
  | stepMove (s : DocState K) (dx dy : K) (h : Reachable s)
      (hd : 1 / 2 < |dx| ∨ 1 / 2 < |dy|) :
      Reachable (commitMoveSelected s dx dy)

end StateDefs

/-!  Real-valued geometry: the parts of the renderer that use
`Math.sqrt`, `Math.atan2`, `Math.cos`/`Math.sin` are instantiated at
`K := ℝ`.  Comparisons on `ℝ` are classical, so this whole section is
noncomputable. -/

noncomputable section RealGeometry

open scoped Classical

/-- `Math.hypot(x, y)` (also `Math.sqrt(x*x + y*y)` in the source). -/
def hypot (x y : ℝ) : ℝ := Real.sqrt (x * x + y * y)

/-- `Math.atan2(y, x)`: the argument of the complex number `x + i·y`,
in `(-π, π]`. -/
def atan2 (y x : ℝ) : ℝ := Complex.arg ⟨x, y⟩

/-- Least element of a list of reals (the JS `Infinity`-seeded min
loop; meaningful for the nonempty lists it is applied to). -/
def listMin : List ℝ → ℝ
  | [] => 0
  | x :: xs => xs.foldl min x

/-- Greatest element of a list of reals. -/
def listMax : List ℝ → ℝ
  | [] => 0
  | x :: xs => xs.foldl max x

/-- Bounding box `(minX, minY, maxX, maxY)` of a point list. -/
def bboxOf (points : List (Point ℝ)) : ℝ × ℝ × ℝ × ℝ :=
  (listMin (points.map Point.x), listMin (points.map Point.y),
   listMax (points.map Point.x), listMax (points.map Point.y))

/-- Diagonal of the bounding box of a point list. -/
def bboxDiagOf (points : List (Point ℝ)) : ℝ :=
  hypot (listMax (points.map Point.x) - listMin (points.map Point.x))
    (listMax (points.map Point.y) - listMin (points.map Point.y))

/-- Distance from the first to the last point of a point list (the
`closeDist` / `lineLen` of `detectAndSnapShape`). -/
def chordOf (points : List (Point ℝ)) : ℝ :=
  hypot ((points.getD (points.length - 1) default).x - (points.getD 0 default).x)
    ((points.getD (points.length - 1) default).y - (points.getD 0 default).y)

/-- Consecutive deltas `(dx, dy)` of a point list (the `i = 1 …` loop
of `isScratchGesture`). -/
def strokeDeltas (points : List (Point ℝ)) : List (ℝ × ℝ) :=
  (points.zip points.tail).map (fun pq => (pq.2.x - pq.1.x, pq.2.y - pq.1.y))

/-- The reversal-counting loop of `isScratchGesture`: walk the
horizontal deltas with the running significant direction (`0` before
the first significant step); steps with `|dx| ≤ 2` neither count nor
change the direction. -/
def reversalFold : List ℝ → Int → Nat → Nat
  | [], _, cnt => cnt
  | dx :: rest, lastDir, cnt =>
      if |dx| > 2 then
        let dir : Int := if dx > 0 then 1 else -1
        reversalFold rest dir (if lastDir ≠ 0 ∧ dir ≠ lastDir then cnt + 1 else cnt)
      else reversalFold rest lastDir cnt

/-- Number of horizontal direction reversals of a gesture. -/
def reversalCount (points : List (Point ℝ)) : Nat :=
  reversalFold ((strokeDeltas points).map Prod.fst) 0 0

/-- Total path length of a gesture (`totalTravel`). -/
def totalTravel (points : List (Point ℝ)) : ℝ :=
  (strokeDeltas points).foldl (fun acc d => acc + hypot d.1 d.2) 0

/-- `isScratchGesture`: at least 15 raw points, at least 4 horizontal
direction reversals (counted only over steps with `|dx| > 2`), and
total travel exceeding 2.5 times the bounding-box diagonal. -/
def isScratchGesture (points : List (Point ℝ)) : Prop :=
  15 ≤ points.length ∧ 4 ≤ reversalCount points ∧
    totalTravel points > bboxDiagOf points * 2.5

/-- Membership of a point in the closed rectangle
`[minX, maxX] × [minY, maxY]` (the hit test of
`eraseStrokesUnderScratch`). -/
def pointInRect (minX minY maxX maxY : ℝ) (p : Point ℝ) : Prop :=
  minX ≤ p.x ∧ p.x ≤ maxX ∧ minY ≤ p.y ∧ p.y ≤ maxY

/-- A stroke is hit by the scratch if at least one of its points lies
inside the scratch bounding box inflated by the 5-unit margin. -/
def strokeHitByScratch (scratchPoints : List (Point ℝ)) (st : Stroke ℝ) : Prop :=
  ∃ p ∈ st.points,
    pointInRect (listMin (scratchPoints.map Point.x) - 5)
      (listMin (scratchPoints.map Point.y) - 5)
      (listMax (scratchPoints.map Point.x) + 5)
      (listMax (scratchPoints.map Point.y) + 5) p

/-- `eraseStrokesUnderScratch`: collect the indices of hit strokes in
ascending scan order, delete them descending (recording each with its
original index), log one `delete` action, and clear the selection when
one existed.  Returns the new state and whether anything was erased. -/
def eraseStrokesUnderScratch (s : DocState ℝ) (scratchPoints : List (Point ℝ)) :
    DocState ℝ × Bool :=
  let toDelete := (List.range s.strokes.length).filter
    (fun i => strokeHitByScratch scratchPoints (s.strokes.getD i default))
  if toDelete = [] then (s, false)
  else
    let indices := sortDesc toDelete
    let deletedStrokes := indices.map (fun i => (i, s.strokes.getD i default))
    let strokes := indices.foldl (fun acc i => eraseAt acc i) s.strokes
    let s := pushUndoAction { s with strokes := strokes } (.delete deletedStrokes)
    (if s.selectedIndices ≠ [] then clearSelection s else s, true)

/-- `pointToSegmentDist`: distance from `(px, py)` to the segment from
`(ax, ay)` to `(bx, by)`. -/
def pointToSegmentDist (px py ax ay bx by' : ℝ) : ℝ :=
  let abx := bx - ax
  let aby := by' - ay
  let apx := px - ax
  let apy := py - ay
  let ab2 := abx * abx + aby * aby
  if ab2 = 0 then Real.sqrt (apx * apx + apy * apy)
  else
    let t := (apx * abx + apy * aby) / ab2
    let t := max 0 (min 1 t)
    let cx := ax + t * abx - px
    let cy := ay + t * aby - py
    Real.sqrt (cx * cx + cy * cy)

/-- Index below which `filterHoldPoints` keeps points: scanning from
the next-to-last point down to the midpoint, the first point farther
than 4 units from the last point sets the cutoff two past itself. -/
def holdCutoff (points : List (Point ℝ)) : Nat :=
  let n := points.length
  let last := points.getD (n - 1) default
  let candidates := (List.range (n - 1 - n / 2)).map (fun k => n - 2 - k)
  match candidates.find? (fun i =>
      hypot ((points.getD i default).x - last.x) ((points.getD i default).y - last.y) > 4) with
  | some i => i + 2
  | none => n

/-- `filterHoldPoints`: drop the cluster of hold-still points (within
4 units of the final point) from the end of the stroke. -/
def filterHoldPoints (points : List (Point ℝ)) : List (Point ℝ) :=
  if points.length < 8 then points
  else
    let cutoff := holdCutoff points
    if cutoff < points.length then points.take cutoff else points

/-- `scoreRectangle`: fraction of points within 15 % of the shorter
side from a bounding-box edge (0 for degenerate boxes). -/
def scoreRectangle (points : List (Point ℝ)) (minX minY maxX maxY : ℝ) : ℝ :=
  let w := maxX - minX
  let h := maxY - minY
  if w < 10 ∨ h < 10 then 0
  else
    let edgeThreshold := min w h * 0.15
    let nearEdge := (points.filter (fun p =>
      min (min |p.x - minX| |p.x - maxX|) (min |p.y - minY| |p.y - maxY|)
        < edgeThreshold)).length
    (nearEdge : ℝ) / points.length

/-- `scoreEllipse`: mean deviation of the implicit axis-aligned
ellipse equation from 1 (999 for degenerate radii). -/
def scoreEllipse (points : List (Point ℝ)) (cx cy rx ry : ℝ) : ℝ :=
  if rx < 5 ∨ ry < 5 then 999
  else
    (points.map (fun p =>
      |((p.x - cx) / rx) ^ 2 + ((p.y - cy) / ry) ^ 2 - 1|)).sum / points.length

/-- `generateCirclePoints`: 65 points on the circle (64 steps plus the
closing repetition of the start). -/
def generateCirclePoints (cx cy radius pressure tiltX tiltY now : ℝ) : List (Point ℝ) :=
  (List.range 65).map (fun i =>
    { x := cx + radius * Real.cos ((i : ℝ) / 64 * (2 * Real.pi))
      y := cy + radius * Real.sin ((i : ℝ) / 64 * (2 * Real.pi))
      pressure := pressure
      timestamp := now + i
      tiltX := tiltX
      tiltY := tiltY })

/-- `generateEllipsePoints`: 65 points on the axis-aligned ellipse. -/
def generateEllipsePoints (cx cy rx ry pressure tiltX tiltY now : ℝ) : List (Point ℝ) :=
  (List.range 65).map (fun i =>
    { x := cx + rx * Real.cos ((i : ℝ) / 64 * (2 * Real.pi))
      y := cy + ry * Real.sin ((i : ℝ) / 64 * (2 * Real.pi))
      pressure := pressure
      timestamp := now + i
      tiltX := tiltX
      tiltY := tiltY })

/-- Steps used for a straight segment of length `len`
(`Math.max(4, Math.ceil(len / 5))`). -/
def segSteps (len : ℝ) : Nat := max 4 (Int.toNat ⌈len / 5⌉)

/-- Coordinates of the rounded-rectangle outline, in emission order:
four edges interleaved with four 8-step quarter arcs, closed at the
start point. -/
def roundedRectCoords (minX minY maxX maxY : ℝ) : List (ℝ × ℝ) :=
  let w := maxX - minX
  let h := maxY - minY
  let r := min (min w h * 0.12) 20
  let arcSteps : Nat := 8
  let topLen := w - 2 * r
  let rightLen := h - 2 * r
  let bottomLen := w - 2 * r
  let leftLen := h - 2 * r
  ((List.range (segSteps topLen + 1)).map (fun i =>
      (minX + r + topLen * i / segSteps topLen, minY))) ++
  ((List.range' 1 arcSteps).map (fun i =>
      let angle := -(Real.pi / 2) + Real.pi / 2 * ((i : ℝ) / arcSteps)
      (maxX - r + r * Real.cos angle, minY + r + r * Real.sin angle))) ++
  ((List.range' 1 (segSteps rightLen)).map (fun i =>
      (maxX, minY + r + rightLen * i / segSteps rightLen))) ++
  ((List.range' 1 arcSteps).map (fun i =>
      let angle := Real.pi / 2 * ((i : ℝ) / arcSteps)
      (maxX - r + r * Real.cos angle, maxY - r + r * Real.sin angle))) ++
  ((List.range' 1 (segSteps bottomLen)).map (fun i =>
      (maxX - r - bottomLen * i / segSteps bottomLen, maxY))) ++
  ((List.range' 1 arcSteps).map (fun i =>
      let angle := Real.pi / 2 + Real.pi / 2 * ((i : ℝ) / arcSteps)
      (minX + r + r * Real.cos angle, maxY - r + r * Real.sin angle))) ++
  ((List.range' 1 (segSteps leftLen)).map (fun i =>
      (minX, maxY - r - leftLen * i / segSteps leftLen))) ++
  ((List.range' 1 arcSteps).map (fun i =>
      let angle := Real.pi + Real.pi / 2 * ((i : ℝ) / arcSteps)
      (minX + r + r * Real.cos angle, minY + r + r * Real.sin angle))) ++
  [(minX + r, minY)]

/-- `generateRoundedRectPoints`: the rounded-rectangle outline with
monotone synthetic timestamps. -/
def generateRoundedRectPoints (minX minY maxX maxY pressure tiltX tiltY now : ℝ) :
    List (Point ℝ) :=
  (roundedRectCoords minX minY maxX maxY).mapIdx (fun t c =>
    { x := c.1, y := c.2, pressure := pressure, timestamp := now + t,
      tiltX := tiltX, tiltY := tiltY })

/-- `generateLinePoints`: at least 4 evenly spaced samples from
`(x1, y1)` to `(x2, y2)`. -/
def generateLinePoints (x1 y1 x2 y2 pressure tiltX tiltY now : ℝ) : List (Point ℝ) :=
  let steps := segSteps (hypot (x2 - x1) (y2 - y1))
  (List.range (steps + 1)).map (fun i =>
    { x := x1 + (x2 - x1) * ((i : ℝ) / steps)
      y := y1 + (y2 - y1) * ((i : ℝ) / steps)
      pressure := pressure
      timestamp := now + i
      tiltX := tiltX
      tiltY := tiltY })

/-- `detectAndSnapShape`: run the closed-shape / open-shape decision
ladder of the source on the hold-filtered points and return the
regenerated point list of the detected shape, or `none`.  `now` stands
for the `performance.now()` read used to stamp the regenerated
points. -/
def detectAndSnapShape (rawPoints : List (Point ℝ)) (now : ℝ) :
    Option (List (Point ℝ)) :=
  if rawPoints.length < 4 then none
  else
    let points := filterHoldPoints rawPoints
    if points.length < 4 then none
    else
      let minX := listMin (points.map Point.x)
      let minY := listMin (points.map Point.y)
      let maxX := listMax (points.map Point.x)
      let maxY := listMax (points.map Point.y)
      let bboxW := maxX - minX
      let bboxH := maxY - minY
      let bboxDiag := hypot bboxW bboxH
      if bboxDiag < 20 then none
      else
        let first := points.getD 0 default
        let last := points.getD (points.length - 1) default
        let closeDist := hypot (last.x - first.x) (last.y - first.y)
        let isClosed := closeDist < bboxDiag * 0.35
        let cx := (points.map Point.x).sum / points.length
        let cy := (points.map Point.y).sum / points.length
        let avgPressure := (rawPoints.map Point.pressure).sum / rawPoints.length
        let avgTiltX := (rawPoints.map Point.tiltX).sum / rawPoints.length
        let avgTiltY := (rawPoints.map Point.tiltY).sum / rawPoints.length
        if isClosed then
          let distances := points.map (fun p => hypot (p.x - cx) (p.y - cy))
          let avgRadius := distances.sum / distances.length
          let variance := (distances.map (fun dd => (dd - avgRadius) ^ 2)).sum /
            (distances.length : ℝ)
          let circleScore := Real.sqrt variance / avgRadius
          let rx := bboxW / 2
          let ry := bboxH / 2
          let ellipseScore := scoreEllipse points cx cy rx ry
          let rectScore := scoreRectangle points minX minY maxX maxY
          let aspect := max bboxW bboxH / max 1 (min bboxW bboxH)
          if circleScore < 0.22 ∧ aspect < 1.4 then
            some (generateCirclePoints cx cy avgRadius avgPressure avgTiltX avgTiltY now)
          else if rectScore > 0.7 then
            some (generateRoundedRectPoints minX minY maxX maxY avgPressure avgTiltX
              avgTiltY now)
          else if ellipseScore < 0.20 ∧ aspect ≥ 1.4 then
            some (generateEllipsePoints cx cy rx ry avgPressure avgTiltX avgTiltY now)
          else if circleScore < 0.38 then
            if aspect < 1.5 then
              some (generateCirclePoints cx cy avgRadius avgPressure avgTiltX avgTiltY now)
            else
              some (generateEllipsePoints cx cy rx ry avgPressure avgTiltX avgTiltY now)
          else if rectScore > 0.5 then
            some (generateRoundedRectPoints minX minY maxX maxY avgPressure avgTiltX
              avgTiltY now)
          else if ellipseScore < 0.35 then
            some (generateEllipsePoints cx cy rx ry avgPressure avgTiltX avgTiltY now)
          else none
        else
          let lineLen := hypot (last.x - first.x) (last.y - first.y)
          if lineLen < 10 then none
          else
            let maxDeviation := (points.map (fun p =>
              pointToSegmentDist p.x p.y first.x first.y last.x last.y)).foldl max 0
            let lineScore := maxDeviation / lineLen
            if lineScore < 0.10 then
              some (generateLinePoints first.x first.y last.x last.y avgPressure
                avgTiltX avgTiltY now)
            else none

/-- The dwell threshold for shape snapping
(`shapeSnapThreshold = 250` ms). -/
def shapeSnapThreshold : ℝ := 250

/-- `endStroke` at time `now`: no-op unless drawing; otherwise run the
scratch-to-erase check (consuming the stroke and erasing on a hit),
else try shape snapping when the pen dwelt for at least the threshold
with at least 4 points, then commit the (possibly snapped) stroke with
the current config and log `addStroke`. -/
def endStroke (s : DocState ℝ) (now : ℝ) : DocState ℝ :=
  if s.isDrawing = false then s
  else
    let s := { s with isDrawing := false }
    if isScratchGesture s.points then
      { (eraseStrokesUnderScratch s s.points).1 with points := [] }
    else
      let holdDuration := now - s.lastMoveTimestamp
      let snapped :=
        if holdDuration ≥ shapeSnapThreshold ∧ 4 ≤ s.points.length then
          detectAndSnapShape s.points now
        else none
      let pts := match snapped with
        | some ps => ps
        | none => s.points
      let newStroke : Stroke ℝ := { points := pts, config := s.config }
      { pushUndoAction { s with strokes := s.strokes ++ [newStroke] }
          (.addStroke newStroke) with points := [] }

/-- `calculateStrokeWidth`: pressure factor × velocity factor on the
base width, tilt-calligraphy modulation when the pen is tilted, then
clamp to `[minWidth, maxWidth]`. -/
def calculateStrokeWidth (current previous : Point ℝ) (config : RenderConfig ℝ) : ℝ :=
  let pFactor := config.pressureInfluence * current.pressure +
    (1 - config.pressureInfluence) * 0.5
  let dx := current.x - previous.x
  let dy := current.y - previous.y
  let dt := max 1 (current.timestamp - previous.timestamp)
  let velocity := Real.sqrt (dx * dx + dy * dy) / dt
  let vFactor := 1 - min 1 (velocity / 2.5) * config.velocityInfluence
  let width := config.baseStrokeWidth * pFactor * vFactor
  let width :=
    if current.tiltX ≠ 0 ∨ current.tiltY ≠ 0 then
      let tiltAngle := Real.sqrt (current.tiltX * current.tiltX +
        current.tiltY * current.tiltY)
      let tiltDirection := atan2 current.tiltY current.tiltX
      let strokeDirection := atan2 dy dx
      let angleDiff := |tiltDirection - strokeDirection|
      let normalizedAngle := min angleDiff (Real.pi - angleDiff) / (Real.pi / 2)
      let tiltMagnitude := min 1 (tiltAngle / 60)
      let tiltFactor := 0.6 + normalizedAngle * 0.9
      width * (1 + (tiltFactor - 1) * tiltMagnitude)
    else width
  max config.minWidth (min config.maxWidth width)

/-- The per-segment `(w1, w2)` width pairs stroked by `renderStroke`
for strokes of at least 4 points: the `calculateStrokeWidth` values,
quadratically tapered over the first and last
`min(8, ⌊0.15·N⌋)` segments, floored at `minWidth`. -/
def renderSegmentWidths (strokePoints : List (Point ℝ)) (config : RenderConfig ℝ) :
    List (ℝ × ℝ) :=
  let totalPoints := strokePoints.length
  let taperLength : Nat := min 8 (Nat.floor ((totalPoints : ℝ) * 0.15))
  (List.range (totalPoints - 3)).map (fun i =>
    let p0 := strokePoints.getD i default
    let p1 := strokePoints.getD (i + 1) default
    let p2 := strokePoints.getD (i + 2) default
    let w1 := calculateStrokeWidth p1 p0 config
    let w2 := calculateStrokeWidth p2 p1 config
    let w1 := if i < taperLength then
        w1 * (((i : ℝ) + 1) / ((taperLength : ℝ) + 1)) ^ 2
      else w1
    let w2 := if i < taperLength then
        w2 * (min 1 (((i : ℝ) + 2) / ((taperLength : ℝ) + 1))) ^ 2
      else w2
    let distFromEnd := totalPoints - 3 - i
    let w1 := if distFromEnd < taperLength then
        w1 * (min 1 (((distFromEnd : ℝ) + 2) / ((taperLength : ℝ) + 1))) ^ 2
      else w1
    let w2 := if distFromEnd < taperLength then
        w2 * (((distFromEnd : ℝ) + 1) / ((taperLength : ℝ) + 1)) ^ 2
      else w2
    (max config.minWidth w1, max config.minWidth w2))

/-- The constant width used by `renderStroke` for 2-3 point strokes:
average-pressure factor, halved, clamped. -/
def shortStrokeWidth (strokePoints : List (Point ℝ)) (config : RenderConfig ℝ) : ℝ :=
  let avgPressure := (strokePoints.map Point.pressure).sum / strokePoints.length
  let pFactor := avgPressure * config.pressureInfluence +
    (1 - config.pressureInfluence) * 0.5
  let width := config.baseStrokeWidth * pFactor * 0.5
  max config.minWidth (min config.maxWidth width)

/-- The disk width used by `renderStroke` for single-point strokes:
pressure factor, dot taper 0.4, clamped. -/
def dotWidth (p : Point ℝ) (config : RenderConfig ℝ) : ℝ :=
  let pFactor := p.pressure * config.pressureInfluence +
    (1 - config.pressureInfluence) * 0.5
  max config.minWidth (min config.maxWidth (config.baseStrokeWidth * pFactor * 0.4))

end RealGeometry

section Haptics

variable {K : Type} [LinearOrderedField K]

/-- State of `HapticEngine`: the enable flag, platform support, and
the time of the last vibration. -/
structure HapticState (K : Type) where
  enabled : Bool
  isSupported : Bool
  lastVibrateTime : K
deriving DecidableEq, Repr

/-- `triggerGrain()` called at time `now`: bail out when disabled or
unsupported, bail out when less than 50 ms has elapsed since the last
vibration, otherwise vibrate (returned flag) and record `now`. -/
def triggerGrain (h : HapticState K) (now : K) : HapticState K × Bool :=
  if ¬h.enabled ∨ ¬h.isSupported then (h, false)
  else if now - h.lastVibrateTime < 50 then (h, false)
  else ({ h with lastVibrateTime := now }, true)

/-- The timestamps at which a sequence of `triggerGrain()` calls at
the given times actually vibrates. -/
def grainPulses (h : HapticState K) : List K → List K
  | [] => []
  | t :: rest =>
      let r := triggerGrain h t
      if r.2 then t :: grainPulses r.1 rest else grainPulses r.1 rest

/-- `FrictionEngine.getHapticInterval(velocity)`: interpolate from
80 ms at rest to 20 ms at velocity 10 and beyond. -/
def getHapticInterval (velocity : K) : K :=
  let minInterval : K := 20
  let maxInterval : K := 80
  let velocityFactor := min 1 (velocity / 10)
  maxInterval - (maxInterval - minInterval) * velocityFactor

end Haptics

section WitnessData

/-- Color literal used by witness documents. -/
def inkBlack : String := "#000000"

/-- Color literal used by witness documents. -/
def inkRed : String := "#ff0000"

/-- A concrete render config (the `DEFAULT_CONFIG` values). -/
def witnessConfig : RenderConfig ℚ :=
  { baseStrokeWidth := 8, minWidth := 1 / 2, maxWidth := 16, smoothness := 13 / 20,
    velocityInfluence := 7 / 10, pressureInfluence := 4 / 5, color := inkBlack,
    opacity := 1, streamline := 7 / 20 }

/-- A concrete one-point stroke. -/
def witnessStroke : Stroke ℚ :=
  { points := [{ x := 1, y := 2, pressure := 1 / 2, timestamp := 10, tiltX := 0, tiltY := 0 }]
    config := witnessConfig }

/-- A second concrete stroke. -/
def witnessStroke2 : Stroke ℚ :=
  { points := [{ x := 5, y := 6, pressure := 1, timestamp := 20, tiltX := 10, tiltY := -5 }]
    config := witnessConfig }

/-- A concrete document with one stroke selected and empty logs. -/
def witnessDoc : DocState ℚ :=
  { strokes := [witnessStroke], undoStack := [], redoStack := [], selectedIndices := [0],
    gridType := GridType.square, camera := { x := 3, y := -2, zoom := 1 },
    points := [], isDrawing := false, isDragging := false, dragStartWorld := none,
    dragCurrentWorld := none, config := witnessConfig, lastMoveTimestamp := 0 }

end WitnessData

noncomputable section RealWitnessData

/-- The witness config at `ℝ` (the `DEFAULT_CONFIG` values). -/
def witnessConfigR : RenderConfig ℝ :=
  { baseStrokeWidth := 8, minWidth := 1 / 2, maxWidth := 16, smoothness := 13 / 20,
    velocityInfluence := 7 / 10, pressureInfluence := 4 / 5, color := inkBlack,
    opacity := 1, streamline := 7 / 20 }

/-- A concrete point. -/
def witnessPointR : Point ℝ :=
  { x := 3, y := 4, pressure := 1 / 2, timestamp := 100, tiltX := 0, tiltY := 0 }

/-- A second concrete point. -/
def witnessPointR2 : Point ℝ :=
  { x := 0, y := 0, pressure := 1, timestamp := 80, tiltX := 30, tiltY := -10 }

/-- A concrete real-valued document that is mid-stroke with an empty
point buffer. -/
def witnessDocR : DocState ℝ :=
  { strokes := [], undoStack := [], redoStack := [], selectedIndices := [0],
    gridType := GridType.square, camera := { x := 0, y := 0, zoom := 1 },
    points := [], isDrawing := true, isDragging := false, dragStartWorld := none,
    dragCurrentWorld := none, config := witnessConfigR, lastMoveTimestamp := 0 }

/-- Scale a gesture trajectory: multiply all point coordinates and
all timestamps by `c` (the transformation quantified over by the
scale-invariance claim). -/
def scalePoints (c : ℝ) (pts : List (Point ℝ)) : List (Point ℝ) :=
  pts.map (fun p => { p with x := c * p.x, y := c * p.y, timestamp := c * p.timestamp })

/-- A zig-zag sample point at `(x, 0)` with timestamp `t`. -/
def zigPoint (x t : ℝ) : Point ℝ :=
  { x := x, y := 0, pressure := 1 / 2, timestamp := t, tiltX := 0, tiltY := 0 }

/-- A concrete 15-point horizontal zig-zag: a scratch gesture with 13
direction reversals, total travel 42 and bounding-box diagonal 3. -/
def scratchPts : List (Point ℝ) :=
  [zigPoint 0 0, zigPoint 3 1, zigPoint 0 2, zigPoint 3 3, zigPoint 0 4,
   zigPoint 3 5, zigPoint 0 6, zigPoint 3 7, zigPoint 0 8, zigPoint 3 9,
   zigPoint 0 10, zigPoint 3 11, zigPoint 0 12, zigPoint 3 13, zigPoint 0 14]

/-- The stroke sitting under the concrete scratch area. -/
def underStroke : Stroke ℝ :=
  { points := [zigPoint 1 0], config := witnessConfigR }

/-- A concrete document mid-stroke with the zig-zag as active points
and one stroke lying under the scratch area. -/
def scratchDocR : DocState ℝ :=
  { strokes := [underStroke]
    undoStack := []
    redoStack := []
    selectedIndices := []
    gridType := GridType.square
    camera := { x := 0, y := 0, zoom := 1 }
    points := scratchPts
    isDrawing := true
    isDragging := false
    dragStartWorld := none
    dragCurrentWorld := none
    config := witnessConfigR
    lastMoveTimestamp := 0 }

end RealWitnessData

section ListLemmas

variable {β γ : Type}

theorem length_insertAt (l : List β) (i : Nat) (a : β) :
    (insertAt l i a).length = l.length + 1 := by
  induction l generalizing i with
  | nil => cases i <;> simp [insertAt]
  | cons b t ih => cases i <;> simp [insertAt, ih]

theorem length_eraseAt (l : List β) (i : Nat) (h : i < l.length) :
    (eraseAt l i).length = l.length - 1 := by
  induction l generalizing i with
  | nil => simp at h
  | cons b t ih =>
    cases i with
    | zero => simp [eraseAt]
    | succ n =>
      have h' : n < t.length := by simpa using h
      simp only [eraseAt, List.length_cons]
      rw [ih n h']
      omega

theorem eraseAt_insertAt (l : List β) (i : Nat) (a : β) (h : i ≤ l.length) :
    eraseAt (insertAt l i a) i = l := by
  induction l generalizing i with
  | nil =>
    cases i with
    | zero => simp [insertAt, eraseAt]
    | succ n => simp at h
  | cons b t ih =>
    cases i with
    | zero => simp [insertAt, eraseAt]
    | succ n => simp [insertAt, eraseAt, ih n (by simpa using h)]

theorem insertAt_eraseAt (l : List β) (i : Nat) (d : β) (h : i < l.length) :
    insertAt (eraseAt l i) i (l.getD i d) = l := by
  induction l generalizing i with
  | nil => simp at h
  | cons b t ih =>
    cases i with
    | zero => simp [insertAt, eraseAt]
    | succ n =>
      simp only [insertAt, eraseAt, List.getD_cons_succ, List.cons.injEq, true_and]
      exact ih n (by simpa using h)

theorem getD_eraseAt_of_lt (l : List β) (i j : Nat) (d : β) (h : j < i) :
    (eraseAt l i).getD j d = l.getD j d := by
  induction l generalizing i j with
  | nil => simp [eraseAt]
  | cons b t ih =>
    cases i with
    | zero => omega
    | succ n =>
      cases j with
      | zero => simp [eraseAt]
      | succ m =>
        simp only [eraseAt, List.getD_cons_succ]
        exact ih n m (by omega)

theorem length_modifyAt (f : β → β) (l : List β) (i : Nat) :
    (modifyAt f l i).length = l.length := by
  induction l generalizing i with
  | nil => simp [modifyAt]
  | cons b t ih => cases i <;> simp [modifyAt, ih]

theorem getD_modifyAt_ne (f : β → β) (l : List β) (i j : Nat) (d : β) (h : j ≠ i) :
    (modifyAt f l i).getD j d = l.getD j d := by
  induction l generalizing i j with
  | nil => simp [modifyAt]
  | cons b t ih =>
    cases i with
    | zero =>
      cases j with
      | zero => omega
      | succ m => simp [modifyAt, List.getD_cons_succ]
    | succ n =>
      cases j with
      | zero => simp [modifyAt]
      | succ m =>
        simp only [modifyAt, List.getD_cons_succ]
        exact ih n m (by omega)

theorem getD_modifyAt_self (f : β → β) (l : List β) (i : Nat) (d : β) (h : i < l.length) :
    (modifyAt f l i).getD i d = f (l.getD i d) := by
  induction l generalizing i with
  | nil => simp at h
  | cons b t ih =>
    cases i with
    | zero => simp [modifyAt]
    | succ n =>
      simp only [modifyAt, List.getD_cons_succ]
      exact ih n (by simpa using h)

theorem modifyAt_comm (f g : β → β) (l : List β) (i j : Nat) (h : i ≠ j) :
    modifyAt f (modifyAt g l j) i = modifyAt g (modifyAt f l i) j := by
  induction l generalizing i j with
  | nil => simp [modifyAt]
  | cons b t ih =>
    cases i with
    | zero =>
      cases j with
      | zero => omega
      | succ m => simp [modifyAt]
    | succ n =>
      cases j with
      | zero => simp [modifyAt]
      | succ m => simp [modifyAt, ih n m (by omega)]

theorem modifyAt_modifyAt_self (f g : β → β) (l : List β) (i : Nat) :
    modifyAt f (modifyAt g l i) i = modifyAt (f ∘ g) l i := by
  induction l generalizing i with
  | nil => simp [modifyAt]
  | cons b t ih => cases i <;> simp [modifyAt, ih]

theorem modifyAt_id_of (f : β → β) (l : List β) (i : Nat)
    (h : ∀ d : β, i < l.length → f (l.getD i d) = l.getD i d) :
    modifyAt f l i = l := by
  induction l generalizing i with
  | nil => simp [modifyAt]
  | cons b t ih =>
    cases i with
    | zero =>
      have := h b (by simp)
      simpa [modifyAt] using this
    | succ n =>
      simp only [modifyAt, List.cons.injEq, true_and]
      exact ih n (fun d hd => by
        have := h d (by simpa using hd)
        simpa [List.getD_cons_succ] using this)

end ListLemmas

section SortLemmas

variable {γ : Type}

theorem insertAscStep_append (p : Nat × γ) (m : List (Nat × γ))
    (h : ∀ q ∈ m, q.1 < p.1) : insertAscStep p m = m ++ [p] := by
  induction m with
  | nil => rfl
  | cons q t ih =>
    have hq : q.1 < p.1 := h q (by simp)
    simp only [insertAscStep, if_neg (by omega : ¬p.1 < q.1), List.cons_append,
      List.cons.injEq, true_and]
    exact ih (fun r hr => h r (by simp [hr]))

theorem sortByIndexAsc_of_desc (ps : List (Nat × γ))
    (h : List.Pairwise (fun p q => q.1 < p.1) ps) :
    sortByIndexAsc ps = ps.reverse := by
  induction ps with
  | nil => rfl
  | cons p t ih =>
    have hhd : ∀ q ∈ t, q.1 < p.1 := fun q hq => (List.pairwise_cons.mp h).1 q hq
    have ht := (List.pairwise_cons.mp h).2
    simp only [sortByIndexAsc, ih ht, List.reverse_cons]
    exact insertAscStep_append p t.reverse (fun q hq => hhd q (by simpa using hq))

theorem insertDescStep_append (n : Nat) (m : List Nat)
    (h : ∀ k ∈ m, n < k) : insertDescStep n m = m ++ [n] := by
  induction m with
  | nil => rfl
  | cons k t ih =>
    have hk : n < k := h k (by simp)
    simp only [insertDescStep, gt_iff_lt, if_neg (by omega : ¬k < n), List.cons_append,
      List.cons.injEq, true_and]
    exact ih (fun r hr => h r (by simp [hr]))

theorem sortDesc_of_desc (l : List Nat)
    (h : List.Pairwise (fun a b => b < a) l) : sortDesc l = l := by
  induction l with
  | nil => rfl
  | cons n t ih =>
    have hhd : ∀ k ∈ t, k < n := fun k hk => (List.pairwise_cons.mp h).1 k hk
    have ht := (List.pairwise_cons.mp h).2
    simp only [sortDesc, ih ht]
    cases t with
    | nil => rfl
    | cons m t' =>
      have : m < n := hhd m (by simp)
      simp [insertDescStep, this]

theorem sortDesc_of_asc (l : List Nat)
    (h : List.Pairwise (fun a b => a < b) l) : sortDesc l = l.reverse := by
  induction l with
  | nil => rfl
  | cons n t ih =>
    have hhd : ∀ k ∈ t, n < k := fun k hk => (List.pairwise_cons.mp h).1 k hk
    have ht := (List.pairwise_cons.mp h).2
    simp only [sortDesc, ih ht, List.reverse_cons]
    exact insertDescStep_append n t.reverse (fun k hk => hhd k (by simpa using hk))

theorem insertDescStep_perm (n : Nat) (m : List Nat) :
    List.Perm (insertDescStep n m) (n :: m) := by
  induction m with
  | nil => rfl
  | cons k t ih =>
    by_cases h : n > k
    · simp [insertDescStep, h]
    · simp only [insertDescStep, if_neg h]
      exact List.Perm.trans (List.Perm.cons k ih) (List.Perm.swap n k t)

theorem sortDesc_perm (l : List Nat) : List.Perm (sortDesc l) l := by
  induction l with
  | nil => rfl
  | cons n t ih =>
    exact List.Perm.trans (insertDescStep_perm n (sortDesc t)) (List.Perm.cons n ih)

theorem insertDescStep_sorted (n : Nat) (m : List Nat)
    (h : List.Pairwise (fun a b => b ≤ a) m) :
    List.Pairwise (fun a b => b ≤ a) (insertDescStep n m) := by
  induction m with
  | nil => simp [insertDescStep]
  | cons k t ih =>
    by_cases hk : n > k
    · simp only [insertDescStep, if_pos hk]
      refine List.pairwise_cons.mpr ⟨?_, h⟩
      intro b hb
      rcases List.mem_cons.mp hb with hb | hb
      · omega
      · have := (List.pairwise_cons.mp h).1 b hb
        omega
    · simp only [insertDescStep, if_neg hk]
      refine List.pairwise_cons.mpr ⟨?_, ih (List.pairwise_cons.mp h).2⟩
      intro b hb
      have hmem := (insertDescStep_perm n t).mem_iff.mp hb
      rcases List.mem_cons.mp hmem with hb | hb
      · omega
      · exact (List.pairwise_cons.mp h).1 b hb

theorem sortDesc_sorted (l : List Nat) :
    List.Pairwise (fun a b => b ≤ a) (sortDesc l) := by
  induction l with
  | nil => simp [sortDesc]
  | cons n t ih => exact insertDescStep_sorted n (sortDesc t) ih

theorem sortDesc_strict_of_nodup (l : List Nat) (h : l.Nodup) :
    List.Pairwise (fun a b => b < a) (sortDesc l) := by
  have hnd : (sortDesc l).Nodup := (sortDesc_perm l).nodup_iff.mpr h
  have hs := sortDesc_sorted l
  have := List.Pairwise.and hs hnd
  exact this.imp (fun h => by omega)

end SortLemmas

section FoldLemmas

variable {β γ δ : Type}

theorem foldl_insert_then_erase (ps : List (Nat × β)) (l : List β)
    (h : DelOK ps l.length) :
    ((ps.map Prod.fst).reverse).foldl (fun acc i => eraseAt acc i)
      (ps.foldl (fun acc p => insertAt acc p.1 p.2) l) = l := by
  induction ps generalizing l with
  | nil => rfl
  | cons p t ih =>
    obtain ⟨hle, hrest⟩ := h
    have hlen : (insertAt l p.1 p.2).length = l.length + 1 := length_insertAt l p.1 p.2
    have ih' := ih (insertAt l p.1 p.2) (by rw [hlen]; exact hrest)
    simp only [List.map_cons, List.reverse_cons, List.foldl_append, List.foldl_cons,
      List.foldl_nil]
    rw [ih']
    exact eraseAt_insertAt l p.1 p.2 hle

theorem length_foldl_modifyAt (f : δ → β → β) (key : δ → Nat) (ps : List δ) (l : List β) :
    (ps.foldl (fun acc p => modifyAt (f p) acc (key p)) l).length = l.length := by
  induction ps generalizing l with
  | nil => rfl
  | cons p t ih =>
    simp only [List.foldl_cons]
    rw [ih, length_modifyAt]

theorem getD_foldl_modifyAt_notMem (f : δ → β → β) (key : δ → Nat) (ps : List δ)
    (l : List β) (j : Nat) (d : β) (h : ∀ p ∈ ps, j ≠ key p) :
    (ps.foldl (fun acc p => modifyAt (f p) acc (key p)) l).getD j d = l.getD j d := by
  induction ps generalizing l with
  | nil => rfl
  | cons p t ih =>
    simp only [List.foldl_cons]
    rw [ih _ (fun q hq => h q (by simp [hq])),
      getD_modifyAt_ne _ _ _ _ _ (h p (by simp))]

theorem getD_foldl_modifyAt_idem (g : β → β) (key : δ → Nat) (ps : List δ)
    (l : List β) (j : Nat) (d : β) (hg : ∀ x, g (g x) = g x)
    (hmem : ∃ p ∈ ps, key p = j) (hj : j < l.length) :
    (ps.foldl (fun acc p => modifyAt g acc (key p)) l).getD j d = g (l.getD j d) := by
  induction ps generalizing l with
  | nil => simp at hmem
  | cons p t ih =>
    simp only [List.foldl_cons]
    by_cases ht : ∃ q ∈ t, key q = j
    · have hj' : j < (modifyAt g l (key p)).length := by rw [length_modifyAt]; exact hj
      rw [ih _ ht hj']
      by_cases hp : key p = j
      · rw [hp, getD_modifyAt_self _ _ _ _ hj, hg]
      · rw [getD_modifyAt_ne _ _ _ _ _ (fun hh => hp hh.symm)]
    · have hp : key p = j := by
        rcases hmem with ⟨q, hq, hkey⟩
        rcases List.mem_cons.mp hq with rfl | hq
        · exact hkey
        · exact absurd ⟨q, hq, hkey⟩ ht
      rw [getD_foldl_modifyAt_notMem _ _ _ _ _ _
        (fun q hq hh => ht ⟨q, hq, hh.symm⟩)]
      rw [hp] at *
      exact getD_modifyAt_self _ _ _ _ hj

theorem getD_foldl_modifyAt_nodup (f : δ → β → β) (key : δ → Nat) (ps : List δ)
    (l : List β) (d : β) (p₀ : δ) (hmem : p₀ ∈ ps) (hnd : (ps.map key).Nodup)
    (hj : key p₀ < l.length) :
    (ps.foldl (fun acc p => modifyAt (f p) acc (key p)) l).getD (key p₀) d
      = f p₀ (l.getD (key p₀) d) := by
  induction ps generalizing l with
  | nil => simp at hmem
  | cons p t ih =>
    simp only [List.map_cons, List.nodup_cons] at hnd
    simp only [List.foldl_cons]
    rcases List.mem_cons.mp hmem with rfl | hmem'
    · rw [getD_foldl_modifyAt_notMem _ _ _ _ _ _
        (fun q hq hh => hnd.1 (by rw [hh]; exact List.mem_map_of_mem key hq))]
      exact getD_modifyAt_self _ _ _ _ hj
    · have hne : key p ≠ key p₀ := fun hh =>
        hnd.1 (by rw [hh]; exact List.mem_map_of_mem key hmem')
      have hj' : key p₀ < (modifyAt (f p) l (key p)).length := by
        rw [length_modifyAt]; exact hj
      rw [ih _ hmem' hnd.2 hj', getD_modifyAt_ne _ _ _ _ _ (fun hh => hne hh.symm)]

theorem foldl_modifyAt_inverse (f g : β → β) (hfg : ∀ x, f (g x) = x)
    (hgf : ∀ x, g (f x) = x) (idxs : List Nat) (l : List β) :
    idxs.foldl (fun acc i => modifyAt f acc i)
      (idxs.foldl (fun acc i => modifyAt g acc i) l) = l := by
  have step : ∀ (m : List β) (i j : Nat),
      modifyAt f (modifyAt g m j) i = modifyAt g (modifyAt f m i) j := by
    intro m i j
    by_cases hij : i = j
    · subst hij
      rw [modifyAt_modifyAt_self, modifyAt_modifyAt_self]
      have h1 : modifyAt (f ∘ g) m i = m := by
        apply modifyAt_id_of
        intro d _
        exact hfg _
      have h2 : modifyAt (g ∘ f) m i = m := by
        apply modifyAt_id_of
        intro d _
        exact hgf _
      rw [h1, h2]
    · exact modifyAt_comm f g m i j hij
  have push : ∀ (rest : List Nat) (m : List β) (i : Nat),
      modifyAt f (rest.foldl (fun acc k => modifyAt g acc k) m) i
        = rest.foldl (fun acc k => modifyAt g acc k) (modifyAt f m i) := by
    intro rest
    induction rest with
    | nil => intro m i; rfl
    | cons k t ih =>
      intro m i
      simp only [List.foldl_cons]
      rw [ih, step]
  induction idxs generalizing l with
  | nil => rfl
  | cons i t ih =>
    simp only [List.foldl_cons]
    rw [push, modifyAt_modifyAt_self]
    have hcancel : modifyAt (f ∘ g) l i = l := by
      apply modifyAt_id_of
      intro d _
      exact hfg _
    rw [hcancel]
    exact ih l

theorem list_ext_getD (l₁ l₂ : List β) (d : β) (hlen : l₁.length = l₂.length)
    (h : ∀ j, l₁.getD j d = l₂.getD j d) : l₁ = l₂ := by
  apply List.ext_getElem hlen
  intro j h1 h2
  have := h j
  rwa [List.getD_eq_getElem l₁ d h1, List.getD_eq_getElem l₂ d h2] at this

end FoldLemmas

section UndoRedoLemmas

variable {K : Type} [LinearOrderedField K]

theorem setStrokeColor_setStrokeColor (a b : String) (s : Stroke K) :
    setStrokeColor a (setStrokeColor b s) = setStrokeColor a s := rfl

theorem setStrokeColor_eq_self (c : String) (s : Stroke K)
    (h : s.config.color = c) : setStrokeColor c s = s := by
  cases s with
  | mk points config =>
    cases config
    simp only [setStrokeColor] at *
    simp_all

theorem translateStroke_neg_translateStroke (dx dy : K) (s : Stroke K) :
    translateStroke (-dx) (-dy) (translateStroke dx dy s) = s := by
  cases s with
  | mk points config =>
    simp only [translateStroke, List.map_map]
    have hcomp : ((fun p : Point K => { p with x := p.x + -dx, y := p.y + -dy }) ∘
        (fun p : Point K => { p with x := p.x + dx, y := p.y + dy })) = id := by
      funext p
      cases p
      simp only [Function.comp_apply, id_eq, Point.mk.injEq]
      constructor
      · ring
      constructor
      · ring
      simp
    rw [hcomp, List.map_id]

theorem translateStroke_translateStroke_neg (dx dy : K) (s : Stroke K) :
    translateStroke dx dy (translateStroke (-dx) (-dy) s) = s := by
  have := translateStroke_neg_translateStroke (-dx) (-dy) s
  simpa using this

theorem getD_modifyAt_setColor_disj (c : String) (l : List (Stroke K)) (i j : Nat)
    (d : Stroke K) :
    (modifyAt (setStrokeColor c) l i).getD j d = l.getD j d ∨
      ∃ c', (modifyAt (setStrokeColor c) l i).getD j d
        = setStrokeColor c' (l.getD j d) := by
  by_cases hp : j = i
  · by_cases hj : j < l.length
    · right
      refine ⟨c, ?_⟩
      rw [hp]
      exact getD_modifyAt_self _ _ _ _ (hp ▸ hj)
    · left
      have hlen : l.length ≤ j := Nat.le_of_not_lt hj
      rw [List.getD_eq_default _ _ (by rw [length_modifyAt]; exact hlen),
        List.getD_eq_default _ _ hlen]
  · exact Or.inl (getD_modifyAt_ne _ _ _ _ _ hp)

/-- After folding arbitrary per-pair color writes over a list, each
entry is either untouched or some recolored copy of the original. -/
theorem getD_foldl_setColor_disj (ps : List (Nat × String)) (l : List (Stroke K))
    (j : Nat) (d : Stroke K) :
    (ps.foldl (fun acc p => modifyAt (setStrokeColor p.2) acc p.1) l).getD j d
        = l.getD j d ∨
      ∃ c, (ps.foldl (fun acc p => modifyAt (setStrokeColor p.2) acc p.1) l).getD j d
        = setStrokeColor c (l.getD j d) := by
  induction ps generalizing l with
  | nil => exact Or.inl rfl
  | cons p t ih =>
    simp only [List.foldl_cons]
    rcases ih (modifyAt (setStrokeColor p.2) l p.1) with h | ⟨c, h⟩ <;>
      rcases getD_modifyAt_setColor_disj p.2 l p.1 j d with h' | ⟨c', h'⟩
    · exact Or.inl (h.trans h')
    · exact Or.inr ⟨c', h.trans h'⟩
    · rw [h, h']
      exact Or.inr ⟨c, rfl⟩
    · rw [h, h', setStrokeColor_setStrokeColor]
      exact Or.inr ⟨c, rfl⟩

theorem fits_apply (l : List (Stroke K)) (a : UndoAction K) (h : Fits l a) :
    applyRedo (applyUndo l a) a = l := by
  cases a with
  | addStroke st =>
    obtain ⟨l', rfl⟩ := h
    simp [applyUndo, applyRedo]
  | delete ds =>
    obtain ⟨hsort, hok⟩ := h
    simp only [applyUndo, applyRedo]
    rw [hsort]
    exact foldl_insert_then_erase (sortByIndexAsc ds) l hok
  | recolor oldConfigs newColor =>
    simp only [applyUndo, applyRedo]
    set m := oldConfigs.foldl (fun acc p => modifyAt (setStrokeColor p.2) acc p.1) l with hm
    have hmlen : m.length = l.length :=
      length_foldl_modifyAt (fun p => setStrokeColor p.2) Prod.fst oldConfigs l
    apply list_ext_getD _ _ default
    · rw [length_foldl_modifyAt (fun _ => setStrokeColor newColor) Prod.fst, hmlen]
    · intro j
      by_cases hmem : ∃ p ∈ oldConfigs, p.1 = j
      · by_cases hj : j < l.length
        · have hstep := getD_foldl_modifyAt_idem (setStrokeColor newColor) Prod.fst
            oldConfigs m j default
            (fun x => setStrokeColor_setStrokeColor newColor newColor x) hmem
            (by rw [hmlen]; exact hj)
          rw [hstep]
          obtain ⟨p, hp, hpj⟩ := hmem
          have hcolor := h p hp (hpj ▸ hj)
          rcases getD_foldl_setColor_disj oldConfigs l j default with hd | ⟨c, hd⟩
          · rw [← hm] at hd
            rw [hd]
            exact setStrokeColor_eq_self _ _ (hpj ▸ hcolor)
          · rw [← hm] at hd
            rw [hd, setStrokeColor_setStrokeColor]
            exact setStrokeColor_eq_self _ _ (hpj ▸ hcolor)
        · have hlen : j ≥ l.length := Nat.le_of_not_lt hj
          rw [List.getD_eq_default _ _
              (by rw [length_foldl_modifyAt (fun _ => setStrokeColor newColor) Prod.fst,
                hmlen]; exact hlen),
            List.getD_eq_default _ _ hlen]
      · rw [getD_foldl_modifyAt_notMem (fun _ => setStrokeColor newColor) Prod.fst _ _ _ _
          (fun p hp hh => hmem ⟨p, hp, hh.symm⟩)]
        rw [hm]
        exact getD_foldl_modifyAt_notMem (fun p => setStrokeColor p.2) Prod.fst _ _ _ _
          (fun p hp hh => hmem ⟨p, hp, hh.symm⟩)
  | move indices dx dy =>
    simp only [applyUndo, applyRedo]
    exact foldl_modifyAt_inverse (translateStroke dx dy) (translateStroke (-dx) (-dy))
      (fun x => translateStroke_translateStroke_neg dx dy x)
      (fun x => translateStroke_neg_translateStroke dx dy x) indices l

end UndoRedoLemmas

section DeleteLemmas

variable {β γ : Type}

theorem pairwise_key_count (t : List (Nat × γ)) (i N : Nat)
    (h1 : List.Pairwise (fun p q => p.1 < q.1) t) (h2 : ∀ p ∈ t, i < p.1)
    (h3 : ∀ p ∈ t, p.1 < N) (h4 : i < N) : i + t.length < N := by
  induction t generalizing i with
  | nil => simpa using h4
  | cons q t' ih =>
    have hq : i < q.1 := h2 q (by simp)
    have hqN : q.1 < N := h3 q (by simp)
    have hchain := List.pairwise_cons.mp h1
    have := ih q.1 hchain.2 (fun p hp => hchain.1 p hp) (fun p hp => h3 p (by simp [hp])) hqN
    simp only [List.length_cons]
    omega

theorem delOK_of_asc (ps : List (Nat × γ)) (N : Nat)
    (hasc : List.Pairwise (fun p q => p.1 < q.1) ps) (hb : ∀ p ∈ ps, p.1 < N) :
    DelOK ps (N - ps.length) := by
  induction ps generalizing N with
  | nil => trivial
  | cons p t ih =>
    have hchain := List.pairwise_cons.mp hasc
    have hcount : p.1 + t.length < N :=
      pairwise_key_count t p.1 N hchain.2 hchain.1 (fun q hq => hb q (by simp [hq]))
        (hb p (by simp))
    refine ⟨by simp only [List.length_cons]; omega, ?_⟩
    have harith : N - (p :: t).length + 1 = N - t.length := by
      simp only [List.length_cons]
      omega
    rw [harith]
    exact ih N hchain.2 (fun q hq => hb q (by simp [hq]))

theorem length_foldl_eraseAt (idxs : List Nat) (l : List β)
    (hdesc : List.Pairwise (fun a b => b < a) idxs)
    (hb : ∀ i ∈ idxs, i < l.length) :
    (idxs.foldl (fun acc i => eraseAt acc i) l).length = l.length - idxs.length := by
  induction idxs generalizing l with
  | nil => rfl
  | cons i rest ih =>
    have hchain := List.pairwise_cons.mp hdesc
    have hi : i < l.length := hb i (by simp)
    have hb' : ∀ j ∈ rest, j < (eraseAt l i).length := by
      intro j hj
      have hji : j < i := hchain.1 j hj
      rw [length_eraseAt l i hi]
      omega
    simp only [List.foldl_cons]
    rw [ih (eraseAt l i) hchain.2 hb', length_eraseAt l i hi, List.length_cons]
    omega

theorem foldl_erase_then_insert (idxs : List Nat) (l : List β) (d : β)
    (hdesc : List.Pairwise (fun a b => b < a) idxs)
    (hb : ∀ i ∈ idxs, i < l.length) :
    (sortByIndexAsc (idxs.map (fun i => (i, l.getD i d)))).foldl
      (fun acc p => insertAt acc p.1 p.2)
      (idxs.foldl (fun acc i => eraseAt acc i) l) = l := by
  induction idxs generalizing l with
  | nil => rfl
  | cons i rest ih =>
    have hchain := List.pairwise_cons.mp hdesc
    have hi : i < l.length := hb i (by simp)
    have hb' : ∀ j ∈ rest, j < (eraseAt l i).length := by
      intro j hj
      have hji : j < i := hchain.1 j hj
      rw [length_eraseAt l i hi]
      omega
    have hpairsdesc : List.Pairwise (fun p q : Nat × β => q.1 < p.1)
        ((i :: rest).map (fun j => (j, l.getD j d))) :=
      List.pairwise_map.mpr (hdesc.imp (fun hlt => hlt))
    have hmapeq : rest.map (fun j => (j, l.getD j d))
        = rest.map (fun j => (j, (eraseAt l i).getD j d)) := by
      apply List.map_congr_left
      intro j hj
      rw [getD_eraseAt_of_lt l i j d (hchain.1 j hj)]
    rw [sortByIndexAsc_of_desc _ hpairsdesc]
    simp only [List.map_cons, List.reverse_cons, List.foldl_append, List.foldl_cons,
      List.foldl_nil]
    have hrestdesc : List.Pairwise (fun p q : Nat × β => q.1 < p.1)
        (rest.map (fun j => (j, (eraseAt l i).getD j d))) :=
      List.pairwise_map.mpr (hchain.2.imp (fun hlt => hlt))
    rw [hmapeq, ← sortByIndexAsc_of_desc _ hrestdesc]
    rw [ih (eraseAt l i) hchain.2 hb']
    exact insertAt_eraseAt l i d hi

end DeleteLemmas

section StateMachine

variable {K : Type} [LinearOrderedField K]

theorem stackOK_commitAdd (s : DocState K) (st : Stroke K)
    (h : StackOK s.strokes s.undoStack) :
    StackOK (commitAddStroke s st).strokes (commitAddStroke s st).undoStack := by
  refine ⟨⟨s.strokes, rfl⟩, ?_⟩
  show StackOK (applyUndo (s.strokes ++ [st]) (.addStroke st)) s.undoStack
  simpa [applyUndo] using h

theorem stackOK_deleteSelected (s : DocState K) (hne : s.selectedIndices ≠ [])
    (hnd : s.selectedIndices.Nodup)
    (hb : ∀ i ∈ s.selectedIndices, i < s.strokes.length)
    (h : StackOK s.strokes s.undoStack) :
    StackOK (deleteSelected s).strokes (deleteSelected s).undoStack := by
  have hidxdesc : List.Pairwise (fun a b => b < a) (sortDesc s.selectedIndices) :=
    sortDesc_strict_of_nodup _ hnd
  have hidxb : ∀ i ∈ sortDesc s.selectedIndices, i < s.strokes.length := fun i hi =>
    hb i ((sortDesc_perm s.selectedIndices).mem_iff.mp hi)
  set idxs := sortDesc s.selectedIndices with hidxs
  set ds := idxs.map (fun i => (i, s.strokes.getD i default)) with hds
  have hdsfst : ds.map Prod.fst = idxs := by
    have hcomp : (Prod.fst ∘ fun i : Nat => (i, s.strokes.getD i default))
        = fun i : Nat => i := rfl
    rw [hds, List.map_map, hcomp, List.map_id']
  have hdsdesc : List.Pairwise (fun p q : Nat × Stroke K => q.1 < p.1) ds :=
    List.pairwise_map.mpr (hidxdesc.imp (fun hlt => hlt))
  have hasc : sortByIndexAsc ds = ds.reverse := sortByIndexAsc_of_desc ds hdsdesc
  have hsortconj : sortDesc (ds.map Prod.fst)
      = ((sortByIndexAsc ds).map Prod.fst).reverse := by
    rw [hasc, List.map_reverse, List.reverse_reverse, hdsfst]
    exact sortDesc_of_desc idxs hidxdesc
  have hlen : (idxs.foldl (fun acc i => eraseAt acc i) s.strokes).length
      = s.strokes.length - idxs.length := length_foldl_eraseAt idxs s.strokes hidxdesc hidxb
  have hdelok : DelOK (sortByIndexAsc ds)
      (idxs.foldl (fun acc i => eraseAt acc i) s.strokes).length := by
    rw [hasc, hlen]
    have hascasc : List.Pairwise (fun p q : Nat × Stroke K => p.1 < q.1) ds.reverse := by
      rw [List.pairwise_reverse]
      exact hdsdesc.imp (fun hlt => hlt)
    have hascb : ∀ p ∈ ds.reverse, p.1 < s.strokes.length := by
      intro p hp
      rw [List.mem_reverse] at hp
      obtain ⟨i, hi, rfl⟩ := List.mem_map.mp hp
      exact hidxb i hi
    have := delOK_of_asc ds.reverse s.strokes.length hascasc hascb
    simpa [hds] using this
  have hrestore : applyUndo (idxs.foldl (fun acc i => eraseAt acc i) s.strokes)
      (.delete ds) = s.strokes := by
    show (sortByIndexAsc ds).foldl (fun acc p => insertAt acc p.1 p.2) _ = s.strokes
    rw [hds]
    exact foldl_erase_then_insert idxs s.strokes default hidxdesc hidxb
  simp only [deleteSelected, if_neg hne, clearSelection, pushUndoAction]
  rw [← hidxs, ← hds]
  refine ⟨⟨hsortconj, hdelok⟩, ?_⟩
  rw [hrestore]
  exact h

theorem stackOK_changeSelectedColor (s : DocState K) (c : String)
    (hne : s.selectedIndices ≠ []) (hnd : s.selectedIndices.Nodup)
    (hb : ∀ i ∈ s.selectedIndices, i < s.strokes.length)
    (h : StackOK s.strokes s.undoStack) :
    StackOK (changeSelectedColor s c).strokes (changeSelectedColor s c).undoStack := by
  set oldConfigs := s.selectedIndices.map
    (fun i => (i, (s.strokes.getD i default).config.color)) with holds
  set strokes' := s.selectedIndices.foldl
    (fun acc i => modifyAt (setStrokeColor c) acc i) s.strokes with hstrokes'
  have hlen : strokes'.length = s.strokes.length := by
    rw [hstrokes']
    exact length_foldl_modifyAt (fun _ => setStrokeColor c) id s.selectedIndices s.strokes
  have hofst : oldConfigs.map Prod.fst = s.selectedIndices := by
    have hcomp : (Prod.fst ∘ fun i : Nat => (i, (s.strokes.getD i default).config.color))
        = fun i : Nat => i := rfl
    rw [holds, List.map_map, hcomp, List.map_id']
  have hnewval : ∀ i ∈ s.selectedIndices, i < s.strokes.length →
      strokes'.getD i default = setStrokeColor c (s.strokes.getD i default) := by
    intro i hi hilen
    have hval := getD_foldl_modifyAt_idem (setStrokeColor c) id s.selectedIndices
      s.strokes i default (fun x => setStrokeColor_setStrokeColor c c x)
      ⟨i, hi, rfl⟩ hilen
    simp only [id_eq] at hval
    rw [hstrokes']
    exact hval
  have hnewoff : ∀ j, j ∉ s.selectedIndices →
      strokes'.getD j default = s.strokes.getD j default := by
    intro j hj
    have hne' : ∀ i ∈ s.selectedIndices, j ≠ id i := by
      intro i hi hh
      simp only [id_eq] at hh
      rw [hh] at hj
      exact hj hi
    have hval := getD_foldl_modifyAt_notMem (fun _ : Nat => setStrokeColor c) id
      s.selectedIndices s.strokes j default hne'
    simp only [id_eq] at hval
    rw [hstrokes']
    exact hval
  have hfits : Fits strokes' (.recolor oldConfigs c) := by
    intro p hp hplen
    rw [holds] at hp
    obtain ⟨i, hi, rfl⟩ := List.mem_map.mp hp
    have hilen : i < s.strokes.length := hb i hi
    show (strokes'.getD i default).config.color = c
    rw [hnewval i hi hilen]
    rfl
  have hrestore : applyUndo strokes' (.recolor oldConfigs c) = s.strokes := by
    show oldConfigs.foldl (fun acc p => modifyAt (setStrokeColor p.2) acc p.1) strokes'
      = s.strokes
    apply list_ext_getD _ _ default
    · rw [length_foldl_modifyAt (fun p => setStrokeColor p.2) Prod.fst, hlen]
    · intro j
      by_cases hj : j ∈ s.selectedIndices
      · have hjlen : j < s.strokes.length := hb j hj
        have hp₀ : (j, (s.strokes.getD j default).config.color) ∈ oldConfigs := by
          rw [holds]
          exact List.mem_map_of_mem _ hj
        have hndkeys : (oldConfigs.map Prod.fst).Nodup := by rw [hofst]; exact hnd
        have hstep := getD_foldl_modifyAt_nodup (fun p => setStrokeColor p.2) Prod.fst
          oldConfigs strokes' default (j, (s.strokes.getD j default).config.color)
          hp₀ hndkeys (by rw [hlen]; exact hjlen)
        have hstep' : (oldConfigs.foldl
            (fun acc p => modifyAt (setStrokeColor p.2) acc p.1) strokes').getD j default
            = setStrokeColor (s.strokes.getD j default).config.color
              (strokes'.getD j default) := hstep
        rw [hstep', hnewval j hj hjlen, setStrokeColor_setStrokeColor]
        exact setStrokeColor_eq_self _ _ rfl
      · have hne' : ∀ p ∈ oldConfigs, j ≠ p.1 := by
          intro p hp hh
          apply hj
          rw [holds] at hp
          obtain ⟨i, hi, rfl⟩ := List.mem_map.mp hp
          simp only at hh
          rw [hh]
          exact hi
        rw [getD_foldl_modifyAt_notMem (fun p => setStrokeColor p.2) Prod.fst _ _ _ _ hne']
        exact hnewoff j hj
  simp only [changeSelectedColor, if_neg hne, pushUndoAction]
  exact ⟨hfits, by rw [hrestore]; exact h⟩

theorem stackOK_commitMoveSelected (s : DocState K) (dx dy : K)
    (h : StackOK s.strokes s.undoStack) :
    StackOK (commitMoveSelected s dx dy).strokes
      (commitMoveSelected s dx dy).undoStack := by
  refine ⟨trivial, ?_⟩
  show StackOK (applyUndo (s.selectedIndices.foldl
      (fun acc i => modifyAt (translateStroke dx dy) acc i) s.strokes)
      (.move s.selectedIndices dx dy)) s.undoStack
  have hcancel : applyUndo (s.selectedIndices.foldl
      (fun acc i => modifyAt (translateStroke dx dy) acc i) s.strokes)
      (.move s.selectedIndices dx dy) = s.strokes := by
    show s.selectedIndices.foldl
        (fun acc i => modifyAt (translateStroke (-dx) (-dy)) acc i) _ = s.strokes
    exact foldl_modifyAt_inverse (translateStroke (-dx) (-dy)) (translateStroke dx dy)
      (fun x => translateStroke_neg_translateStroke dx dy x)
      (fun x => translateStroke_translateStroke_neg dx dy x) s.selectedIndices s.strokes
  rw [hcancel]
  exact h

theorem reachable_invariant (s : DocState K) (h : Reachable s) :
    StackOK s.strokes s.undoStack ∧ s.redoStack = [] := by
  induction h with
  | base s hu hr =>
    constructor
    · rw [hu]
      trivial
    · exact hr
  | stepAdd s st _ ih => exact ⟨stackOK_commitAdd s st ih.1, rfl⟩
  | stepDelete s _ hne hnd hb ih =>
    refine ⟨stackOK_deleteSelected s hne hnd hb ih.1, ?_⟩
    simp [deleteSelected, if_neg hne, clearSelection, pushUndoAction]
  | stepRecolor s c _ hne hnd hb ih =>
    refine ⟨stackOK_changeSelectedColor s c hne hnd hb ih.1, ?_⟩
    simp [changeSelectedColor, if_neg hne, pushUndoAction]
  | stepMove s dx dy _ hd ih => exact ⟨stackOK_commitMoveSelected s dx dy ih.1, rfl⟩

theorem redoFn_undoFn (s : DocState K) (a : UndoAction K) (rest : List (UndoAction K))
    (hstack : s.undoStack = a :: rest) (hfit : Fits s.strokes a) :
    redoFn (undoFn s) = s := by
  cases s with
  | mk strokes undoStack redoStack sel grid cam pts drawing dragging ds dc cfg lmt =>
    simp only at hstack
    subst hstack
    simp only [undoFn, redoFn]
    simp only at hfit
    simp [fits_apply _ _ hfit]

theorem stackOK_undoFn (s : DocState K) (h : StackOK s.strokes s.undoStack) :
    StackOK (undoFn s).strokes (undoFn s).undoStack := by
  cases hstack : s.undoStack with
  | nil => simpa [undoFn, hstack] using (by rw [hstack] at h; exact h)
  | cons a rest =>
    rw [hstack] at h
    simp only [undoFn, hstack]
    exact h.2

theorem roundtrip_le (k : ℕ) (s : DocState K) (hk : k ≤ s.undoStack.length)
    (h : StackOK s.strokes s.undoStack) :
    redoFn^[k] (undoFn^[k] s) = s := by
  induction k generalizing s with
  | zero => rfl
  | succ k ih =>
    cases hstack : s.undoStack with
    | nil => rw [hstack] at hk; simp at hk
    | cons a rest =>
      rw [hstack] at h hk
      have hstack' : (undoFn s).undoStack = rest := by simp [undoFn, hstack]
      have hok' : StackOK (undoFn s).strokes (undoFn s).undoStack := by
        simp only [undoFn, hstack]
        exact h.2
      rw [Function.iterate_succ_apply', Function.iterate_succ_apply]
      rw [ih (undoFn s) (by rw [hstack']; exact Nat.le_of_succ_le_succ hk) hok']
      exact redoFn_undoFn s a rest hstack h.1

theorem undoFn_of_empty (s : DocState K) (h : s.undoStack = []) : undoFn s = s := by
  simp [undoFn, h]

theorem redoFn_of_empty (s : DocState K) (h : s.redoStack = []) : redoFn s = s := by
  simp [redoFn, h]

theorem undoStack_undoFn_iter (k : ℕ) (s : DocState K) :
    (undoFn^[k] s).undoStack = s.undoStack.drop k := by
  induction k generalizing s with
  | zero => rfl
  | succ k ih =>
    rw [Function.iterate_succ_apply, ih]
    cases hstack : s.undoStack with
    | nil => simp [undoFn, hstack]
    | cons a rest => simp [undoFn, hstack]

end StateMachine

section DocumentClaims

variable {K : Type} [LinearOrderedField K]

/-- C1.  Undo/redo is an exact round trip: for every document reachable
by committed user actions (addStroke, delete, recolor, move) from a
state with empty logs, undoing `k` times and then redoing `k` times
returns the whole renderer state — in particular the stroke list with
all indices, point coordinates, timestamps and configs — exactly.
Numbers are modelled as exact field elements, so equality here is the
claim's bit-exactness; undoing a `move` subtracts `(dx, dy)` from every
point of the moved strokes (`applyUndo`), redoing adds it back
(`applyRedo`), which cancels exactly. -/
theorem C1_undo_redo_round_trip (s : DocState K) (h : Reachable s) (k : ℕ) :
    redoFn^[k] (undoFn^[k] s) = s := by
  obtain ⟨hok, hredo⟩ := reachable_invariant s h
  rcases le_or_lt k s.undoStack.length with hk | hk
  · exact roundtrip_le k s hk hok
  · have hn : s.undoStack.length ≤ k := le_of_lt hk
    have hsplit : (k - s.undoStack.length) + s.undoStack.length = k :=
      Nat.sub_add_cancel hn
    have hstuck : (undoFn^[s.undoStack.length] s).undoStack = [] := by
      rw [undoStack_undoFn_iter]
      simp
    have hu1 : undoFn^[k] s = undoFn^[s.undoStack.length] s := by
      rw [← hsplit, Function.iterate_add_apply]
      exact Function.iterate_fixed
        (undoFn_of_empty (undoFn^[s.undoStack.length] s) hstuck) _
    rw [hu1, ← hsplit, Function.iterate_add_apply,
      roundtrip_le s.undoStack.length s le_rfl hok]
    exact Function.iterate_fixed (redoFn_of_empty s hredo) _

/-- Witness for C1: a concrete reachable three-commit document, with
two undos and two redos. -/
theorem C1_witness :
    redoFn^[2] (undoFn^[2] (commitAddStroke (changeSelectedColor witnessDoc inkRed)
        witnessStroke2))
      = commitAddStroke (changeSelectedColor witnessDoc inkRed) witnessStroke2 := by
  have hreach : Reachable (commitAddStroke (changeSelectedColor witnessDoc inkRed)
      witnessStroke2) :=
    Reachable.stepAdd _ _
      (Reachable.stepRecolor witnessDoc inkRed
        (Reachable.base witnessDoc rfl rfl) (by decide) (by decide) (by decide))
  exact C1_undo_redo_round_trip _ hreach 2

/-- C2.  JSON round trip: `exportStrokes` emits
`{version := 1, gridType, strokes}` with the document's stroke list
(deep copy is the identity under value semantics, so every numeric
field is preserved exactly), and `loadStrokes ∘ exportStrokes` keeps
the stroke list and the grid type while clearing the undo stack, the
redo stack, the selection and the active point buffer. -/
theorem C2_json_round_trip (s : DocState K) :
    exportStrokes s
      = { version := 1, gridType := some s.gridType, strokes := some s.strokes } ∧
    loadStrokes s (some (exportStrokes s))
      = { s with
          points := []
          undoStack := []
          redoStack := []
          selectedIndices := []
          isDragging := false
          dragStartWorld := none
          dragCurrentWorld := none } := by
  refine ⟨rfl, ?_⟩
  simp [loadStrokes, exportStrokes, clearSelection]

/-- C3.  Zoom pivot invariance: `zoom(f, pivot)` sets the zoom level to
`clamp(zoom · f, 0.2, 5.0)` and leaves the world point under the pivot
exactly unchanged (exact equality in field arithmetic, which is
stronger than the claimed 1e-6 tolerance), for every camera and factor,
clamped or not. -/
theorem C3_zoom_pivot_invariance (cam : Camera K) (f sx sy : K) :
    (zoomOp cam f sx sy).zoom = max (1 / 5) (min 5 (cam.zoom * f)) ∧
    screenToWorld (zoomOp cam f sx sy) sx sy = screenToWorld cam sx sy := by
  refine ⟨rfl, ?_⟩
  simp only [zoomOp, screenToWorld, Prod.mk.injEq]
  constructor <;> ring

/-- C8.  Malformed load is a no-op: `loadStrokes` with a
`null`/`undefined` argument or with a `strokes` field that is not an
array returns without touching the stroke list, the stacks, the
selection or the grid type. -/
theorem C8_malformed_load_noop (s : DocState K) (data : Option (SerializedDrawing K))
    (h : data = none ∨ ∃ d, data = some d ∧ d.strokes = none) :
    loadStrokes s data = s := by
  rcases h with rfl | ⟨d, rfl, hd⟩
  · rfl
  · simp [loadStrokes, hd]

/-- Witness for C8: loading `null` into a concrete document. -/
theorem C8_witness : loadStrokes witnessDoc none = witnessDoc :=
  C8_malformed_load_noop witnessDoc none (Or.inl rfl)

end DocumentClaims

section HapticClaims

variable {K : Type} [LinearOrderedField K]

theorem grainPulses_chain (ts : List K) (h : HapticState K) :
    List.Chain' (fun t1 t2 => t1 + 50 ≤ t2) (h.lastVibrateTime :: grainPulses h ts) := by
  induction ts generalizing h with
  | nil => simp [grainPulses]
  | cons t rest ih =>
    by_cases hg : ¬h.enabled ∨ ¬h.isSupported
    · have hr : triggerGrain h t = (h, false) := by
        unfold triggerGrain
        rw [if_pos hg]
      simp only [grainPulses, hr]
      exact ih h
    · by_cases hlt : t - h.lastVibrateTime < 50
      · have hr : triggerGrain h t = (h, false) := by
          unfold triggerGrain
          rw [if_neg hg, if_pos hlt]
        simp only [grainPulses, hr]
        exact ih h
      · have hr : triggerGrain h t = ({ h with lastVibrateTime := t }, true) := by
          unfold triggerGrain
          rw [if_neg hg, if_neg hlt]
        simp only [grainPulses, hr]
        have hchain := ih { h with lastVibrateTime := t }
        refine List.chain'_cons.mpr ⟨?_, hchain⟩
        have : 50 ≤ t - h.lastVibrateTime := not_lt.mp hlt
        linarith

/-- C10.  Grain haptic pulses are rate limited to at most one per
50 ms: `getHapticInterval` is the claimed linear ramp from 80 ms down
to 20 ms (reaching 20 ms at velocity 10 and beyond), `triggerGrain`
returns without vibrating whenever less than 50 ms has passed since
the last pulse, and along any sequence of `triggerGrain` calls the
emitted pulse times are at least 50 ms apart — at most 20 Hz at any
velocity. -/
theorem C10_grain_rate_limit (h : HapticState K) (now v : K) (ts : List K) :
    getHapticInterval v = 80 - (80 - 20) * min 1 (v / 10) ∧
    (10 ≤ v → getHapticInterval v = 20) ∧
    (now - h.lastVibrateTime < 50 → triggerGrain h now = (h, false)) ∧
    List.Chain' (fun t1 t2 => t1 + 50 ≤ t2) (grainPulses h ts) := by
  refine ⟨rfl, ?_, ?_, ?_⟩
  · intro hv
    have h10 : (1 : K) ≤ v / 10 := by
      rw [le_div_iff (by norm_num : (0 : K) < 10)]
      linarith
    simp only [getHapticInterval, min_eq_left h10]
    norm_num
  · intro hlt
    by_cases hg : ¬h.enabled ∨ ¬h.isSupported
    · unfold triggerGrain
      rw [if_pos hg]
    · unfold triggerGrain
      rw [if_neg hg, if_pos hlt]
  · exact (List.chain'_cons'.mp (grainPulses_chain ts h)).2

/-- Witness for C10: a concrete call 30 ms after the previous pulse is
dropped, and the interval formula bottoms out at 20 ms. -/
theorem C10_witness :
    triggerGrain ({ enabled := true, isSupported := true, lastVibrateTime := 20 } :
        HapticState ℚ) 49
      = ({ enabled := true, isSupported := true, lastVibrateTime := 20 }, false) ∧
    getHapticInterval (12 : ℚ) = 20 := by
  refine ⟨?_, ?_⟩
  · exact (C10_grain_rate_limit _ 49 0 []).2.2.1 (by norm_num)
  · exact (C10_grain_rate_limit
      ({ enabled := true, isSupported := true, lastVibrateTime := 20 } : HapticState ℚ)
      0 12 []).2.1 (by norm_num)

end HapticClaims

section ScratchLemmas

open scoped Classical

variable {β : Type}

theorem range_filter_getD_eq_nil_iff (l : List β) (P : β → Prop) (d : β) :
    ((List.range l.length).filter (fun i => P (l.getD i d))) = [] ↔
      ∀ x ∈ l, ¬ P x := by
  rw [List.filter_eq_nil_iff]
  constructor
  · intro h x hx
    obtain ⟨i, hi, rfl⟩ := List.mem_iff_getElem.mp hx
    have := h i (List.mem_range.mpr hi)
    rw [List.getD_eq_getElem l d hi] at this
    simpa using this
  · intro h i hi
    have hi' := List.mem_range.mp hi
    rw [List.getD_eq_getElem l d hi']
    simpa using h _ (List.getElem_mem hi')

theorem foldr_eraseAt_map_succ (x : β) (xs : List β) (is : List Nat) :
    (is.map Nat.succ).foldr (fun i acc => eraseAt acc i) (x :: xs)
      = x :: is.foldr (fun i acc => eraseAt acc i) xs := by
  induction is with
  | nil => rfl
  | cons i t ih =>
    simp only [List.map_cons, List.foldr_cons, ih]
    rfl

theorem foldr_eraseAt_range_filter (P : β → Prop) (d : β) (l : List β) :
    ((List.range l.length).filter (fun i => P (l.getD i d))).foldr
      (fun i acc => eraseAt acc i) l = l.filter (fun x => ¬ P x) := by
  induction l with
  | nil => rfl
  | cons x xs ih =>
    have hrange : List.range (x :: xs).length
        = 0 :: (List.range xs.length).map Nat.succ := by
      rw [List.length_cons, List.range_succ_eq_map]
    have hfiltmap : ((List.range xs.length).map Nat.succ).filter
          (fun i => P ((x :: xs).getD i d))
        = ((List.range xs.length).filter (fun i => P (xs.getD i d))).map Nat.succ := by
      rw [List.filter_map]
      congr 1
    rw [hrange, List.filter_cons, List.filter_cons, hfiltmap]
    by_cases hx : P x
    · rw [if_pos (by simp [hx] : decide (P ((x :: xs).getD 0 d)) = true),
        if_neg (by simp [hx] : ¬ decide (¬ P x) = true)]
      simp only [List.foldr_cons]
      rw [foldr_eraseAt_map_succ, ← ih]
      rfl
    · rw [if_neg (by simp [hx] : ¬ decide (P ((x :: xs).getD 0 d)) = true),
        if_pos (by simp [hx] : decide (¬ P x) = true)]
      rw [foldr_eraseAt_map_succ, ih]

theorem pairwise_lt_range_filter (n : Nat) (p : Nat → Bool) :
    List.Pairwise (fun a b => a < b) ((List.range n).filter p) :=
  (List.pairwise_lt_range n).filter p

end ScratchLemmas

section EndStrokeClaims

open scoped Classical

/-- C6.  Every committed user action clears the redo stack:
`pushUndoAction` resets it unconditionally, so after `deleteSelected`
or `changeSelectedColor` on a nonempty selection, after
`endMoveSelected` with displacement over 0.5 world units, after a
committed (non-scratch) `endStroke`, and after a scratch-erase that
deletes at least one stroke, `canRedo()` is `false`. -/
theorem C6_commit_clears_redo (s : DocState ℝ) (a : UndoAction ℝ) (c : String)
    (now : ℝ) :
    (pushUndoAction s a).redoStack = [] ∧
    (s.selectedIndices ≠ [] → canRedo (deleteSelected s) = false) ∧
    (s.selectedIndices ≠ [] → canRedo (changeSelectedColor s c) = false) ∧
    (∀ start cur : ℝ × ℝ, s.isDragging = true → s.dragStartWorld = some start →
      s.dragCurrentWorld = some cur →
      (1 / 2 < |cur.1 - start.1| ∨ 1 / 2 < |cur.2 - start.2|) →
      canRedo (endMoveSelected s) = false) ∧
    (s.isDrawing = true → ¬ isScratchGesture s.points →
      canRedo (endStroke s now) = false) ∧
    (s.isDrawing = true → isScratchGesture s.points →
      (∃ st ∈ s.strokes, strokeHitByScratch s.points st) →
      canRedo (endStroke s now) = false) := by
  refine ⟨rfl, ?_, ?_, ?_, ?_, ?_⟩
  · intro hne
    simp [deleteSelected, if_neg hne, clearSelection, pushUndoAction, canRedo]
  · intro hne
    simp [changeSelectedColor, if_neg hne, pushUndoAction, canRedo]
  · intro start cur hdrag hstart hcur hdisp
    simp only [endMoveSelected, hdrag, hstart, hcur]
    rw [if_pos hdisp]
    simp [pushUndoAction, canRedo]
  · intro hdraw hscratch
    simp only [endStroke, hdraw]
    rw [if_neg (by simp : ¬(true = false)), if_neg hscratch]
    simp [pushUndoAction, canRedo]
  · intro hdraw hscratch hhit
    simp only [endStroke, hdraw]
    rw [if_neg (by simp : ¬(true = false)), if_pos hscratch]
    have hne : ((List.range s.strokes.length).filter
        (fun i => strokeHitByScratch s.points (s.strokes.getD i default))) ≠ [] := by
      rw [Ne, range_filter_getD_eq_nil_iff]
      push_neg
      obtain ⟨st, hst, hstHit⟩ := hhit
      exact ⟨st, hst, by simpa using hstHit⟩
    simp only [eraseStrokesUnderScratch]
    rw [if_neg hne]
    by_cases hsel : s.selectedIndices ≠ [] <;>
      simp [hsel, clearSelection, pushUndoAction, canRedo]

/-- C5.  Scratch-to-erase: when an ended stroke classifies as a
scratch gesture (at least 15 points, at least 4 horizontal reversals
over significant steps, travel above 2.5× the bbox diagonal), the
stroke is not committed — the stroke list becomes exactly the previous
strokes minus every stroke having a point inside the scratch bounding
box inflated by 5 world units, no `addStroke` is logged, and when at
least one stroke is hit the undo stack gains one single `delete`
action holding each removed stroke with its original index (in the
descending order the source records them); when nothing is hit the
document is untouched. -/
theorem C5_scratch_to_erase (s : DocState ℝ) (now : ℝ)
    (hdraw : s.isDrawing = true) (hscratch : isScratchGesture s.points) :
    (endStroke s now).strokes
        = s.strokes.filter (fun st => ¬ strokeHitByScratch s.points st) ∧
    ((∃ st ∈ s.strokes, strokeHitByScratch s.points st) →
      (endStroke s now).undoStack
        = UndoAction.delete
            ((((List.range s.strokes.length).filter
                (fun i => strokeHitByScratch s.points (s.strokes.getD i default))).reverse).map
              (fun i => (i, s.strokes.getD i default)))
          :: s.undoStack) ∧
    ((∀ st ∈ s.strokes, ¬ strokeHitByScratch s.points st) →
      (endStroke s now).strokes = s.strokes ∧
        (endStroke s now).undoStack = s.undoStack) := by
  have hfilterall := range_filter_getD_eq_nil_iff s.strokes
    (strokeHitByScratch s.points) default
  by_cases hempty : ((List.range s.strokes.length).filter
      (fun i => strokeHitByScratch s.points (s.strokes.getD i default))) = []
  · have hnone : ∀ st ∈ s.strokes, ¬ strokeHitByScratch s.points st :=
      hfilterall.mp hempty
    have hkeep : s.strokes.filter (fun st => ¬ strokeHitByScratch s.points st)
        = s.strokes := by
      rw [List.filter_eq_self]
      intro st hst
      simpa using hnone st hst
    have hend : endStroke s now
        = { { s with isDrawing := false } with points := [] } := by
      simp only [endStroke, hdraw]
      rw [if_neg (by simp : ¬(true = false)), if_pos hscratch]
      simp only [eraseStrokesUnderScratch]
      rw [if_pos hempty]
    refine ⟨?_, ?_, ?_⟩
    · rw [hend, hkeep]
    · intro ⟨st, hst, hhit⟩
      exact absurd hhit (hnone st hst)
    · intro _
      rw [hend]
      exact ⟨rfl, rfl⟩
  · have hsort : sortDesc ((List.range s.strokes.length).filter
        (fun i => strokeHitByScratch s.points (s.strokes.getD i default)))
        = ((List.range s.strokes.length).filter
            (fun i => strokeHitByScratch s.points (s.strokes.getD i default))).reverse :=
      sortDesc_of_asc _ (pairwise_lt_range_filter _ _)
    have herase : (((List.range s.strokes.length).filter
          (fun i => strokeHitByScratch s.points (s.strokes.getD i default))).reverse).foldl
            (fun acc i => eraseAt acc i) s.strokes
        = s.strokes.filter (fun st => ¬ strokeHitByScratch s.points st) := by
      rw [List.foldl_reverse]
      exact foldr_eraseAt_range_filter (strokeHitByScratch s.points) default s.strokes
    have hend : endStroke s now
        = { (eraseStrokesUnderScratch { s with isDrawing := false } s.points).1 with
            points := [] } := by
      simp only [endStroke, hdraw]
      rw [if_neg (by simp : ¬(true = false)), if_pos hscratch]
    have hS : (eraseStrokesUnderScratch { s with isDrawing := false } s.points).1.strokes
        = s.strokes.filter (fun st => ¬ strokeHitByScratch s.points st) := by
      simp only [eraseStrokesUnderScratch, pushUndoAction, clearSelection]
      rw [if_neg hempty, hsort]
      by_cases hsel : s.selectedIndices ≠ []
      · rw [if_pos hsel]
        exact herase
      · rw [if_neg hsel]
        exact herase
    have hU : (eraseStrokesUnderScratch { s with isDrawing := false } s.points).1.undoStack
        = UndoAction.delete
            ((((List.range s.strokes.length).filter
                (fun i => strokeHitByScratch s.points (s.strokes.getD i default))).reverse).map
              (fun i => (i, s.strokes.getD i default)))
          :: s.undoStack := by
      simp only [eraseStrokesUnderScratch, pushUndoAction, clearSelection]
      rw [if_neg hempty, hsort]
      by_cases hsel : s.selectedIndices ≠ []
      · rw [if_pos hsel]
      · rw [if_neg hsel]
    refine ⟨?_, ?_, ?_⟩
    · rw [hend]
      simpa using hS
    · intro _
      rw [hend]
      simpa using hU
    · intro hnone
      exact absurd (hfilterall.mpr hnone) hempty

/-- C9.  Implicit minimum-size gates on shape snapping: when the
hold-filtered points have a bounding-box diagonal under 20 world
units, `detectAndSnapShape` returns `null`; an open (non-closed)
stroke whose endpoint-to-endpoint chord is under 10 world units is
never snapped (the open branch returns `null` before the deviation
test, whatever the dwell, point-count and deviation conditions say);
and whenever `detectAndSnapShape` returns `null`, the non-scratch
`endStroke` path commits the stroke with its captured points
unchanged. -/
theorem C9_shape_snap_size_gates (rawPoints : List (Point ℝ)) (now : ℝ)
    (s : DocState ℝ) :
    (bboxDiagOf (filterHoldPoints rawPoints) < 20 →
      detectAndSnapShape rawPoints now = none) ∧
    (¬ (chordOf (filterHoldPoints rawPoints)
          < bboxDiagOf (filterHoldPoints rawPoints) * 0.35) →
      chordOf (filterHoldPoints rawPoints) < 10 →
      detectAndSnapShape rawPoints now = none) ∧
    (s.isDrawing = true → ¬ isScratchGesture s.points →
      detectAndSnapShape s.points now = none →
      (endStroke s now).strokes
        = s.strokes ++ [{ points := s.points, config := s.config }]) := by
  refine ⟨?_, ?_, ?_⟩
  · intro hdiag
    simp only [bboxDiagOf] at hdiag
    simp only [detectAndSnapShape]
    by_cases h1 : rawPoints.length < 4
    · rw [if_pos h1]
    · rw [if_neg h1]
      by_cases h2 : (filterHoldPoints rawPoints).length < 4
      · rw [if_pos h2]
      · rw [if_neg h2, if_pos hdiag]
  · intro hnc hchord
    simp only [bboxDiagOf] at hnc
    simp only [chordOf] at hnc hchord
    simp only [detectAndSnapShape]
    by_cases h1 : rawPoints.length < 4
    · rw [if_pos h1]
    · rw [if_neg h1]
      by_cases h2 : (filterHoldPoints rawPoints).length < 4
      · rw [if_pos h2]
      · rw [if_neg h2]
        by_cases h3 : hypot
            (listMax ((filterHoldPoints rawPoints).map Point.x)
              - listMin ((filterHoldPoints rawPoints).map Point.x))
            (listMax ((filterHoldPoints rawPoints).map Point.y)
              - listMin ((filterHoldPoints rawPoints).map Point.y)) < 20
        · rw [if_pos h3]
        · rw [if_neg h3, if_neg hnc, if_pos hchord]
  · intro hdraw hscratch hsnap
    simp only [endStroke, hdraw]
    rw [if_neg (by simp : ¬(true = false)), if_neg hscratch]
    by_cases hdwell : now - s.lastMoveTimestamp ≥ shapeSnapThreshold ∧
        4 ≤ s.points.length
    · rw [if_pos hdwell, hsnap]
      simp [pushUndoAction]
    · rw [if_neg hdwell]
      simp [pushUndoAction]

end EndStrokeClaims

section WidthClaims

open scoped Classical

theorem taper_step_bound (w f M : ℝ) (hw0 : 0 ≤ w) (hwM : w ≤ M) (hf0 : 0 ≤ f)
    (hf1 : f ≤ 1) : 0 ≤ w * f ∧ w * f ≤ M :=
  ⟨mul_nonneg hw0 hf0, (mul_le_of_le_one_right hw0 hf1).trans hwM⟩

theorem ratio_sq_bounds (a b : ℝ) (h0 : 0 ≤ a) (hab : a ≤ b) (hb : 0 < b) :
    0 ≤ (a / b) ^ 2 ∧ (a / b) ^ 2 ≤ 1 := by
  constructor
  · positivity
  · have h1 : a / b ≤ 1 := (div_le_one hb).mpr hab
    have h2 : 0 ≤ a / b := div_nonneg h0 (le_of_lt hb)
    nlinarith

theorem min_one_sq_bounds (x : ℝ) (h0 : 0 ≤ x) :
    0 ≤ (min 1 x) ^ 2 ∧ (min 1 x) ^ 2 ≤ 1 := by
  have h1 : 0 ≤ min 1 x := le_min (by norm_num) h0
  have h2 : min 1 x ≤ 1 := min_le_left _ _
  constructor
  · positivity
  · nlinarith

/-- C4.  The width model: `calculateStrokeWidth` equals the clamp of
`baseStrokeWidth · pFactor · vFactor · tiltScale` with the claimed
factors (`θ` read, as in the source, as the absolute difference of the
two `atan2` values), and — for a config with `0 ≤ minWidth ≤
maxWidth` — every width the renderer strokes lies in
`[minWidth, maxWidth]`: the per-segment widths including the
quadratically tapered entry/exit segments, the constant short-stroke
width, and the single-point dot width. -/
theorem C4_width_model (current previous : Point ℝ) (config : RenderConfig ℝ)
    (pts : List (Point ℝ)) (p : Point ℝ)
    (hmM : config.minWidth ≤ config.maxWidth) (h0m : 0 ≤ config.minWidth) :
    (calculateStrokeWidth current previous config
      = max config.minWidth (min config.maxWidth
          (config.baseStrokeWidth
            * (config.pressureInfluence * current.pressure
                + (1 - config.pressureInfluence) * 0.5)
            * (1 - min 1 (hypot (current.x - previous.x) (current.y - previous.y)
                  / max 1 (current.timestamp - previous.timestamp) / 2.5)
                * config.velocityInfluence)
            * (if current.tiltX ≠ 0 ∨ current.tiltY ≠ 0 then
                1 + (0.6
                    + min |atan2 current.tiltY current.tiltX
                          - atan2 (current.y - previous.y) (current.x - previous.x)|
                        (Real.pi - |atan2 current.tiltY current.tiltX
                          - atan2 (current.y - previous.y) (current.x - previous.x)|)
                      / (Real.pi / 2) * 0.9
                    - 1)
                  * min 1 (hypot current.tiltX current.tiltY / 60)
              else 1)))) ∧
    config.minWidth ≤ calculateStrokeWidth current previous config ∧
    calculateStrokeWidth current previous config ≤ config.maxWidth ∧
    (∀ w ∈ renderSegmentWidths pts config,
      config.minWidth ≤ w.1 ∧ w.1 ≤ config.maxWidth ∧
      config.minWidth ≤ w.2 ∧ w.2 ≤ config.maxWidth) ∧
    config.minWidth ≤ shortStrokeWidth pts config ∧
    shortStrokeWidth pts config ≤ config.maxWidth ∧
    config.minWidth ≤ dotWidth p config ∧
    dotWidth p config ≤ config.maxWidth := by
  have hcalc_lo : ∀ a b : Point ℝ, config.minWidth ≤ calculateStrokeWidth a b config := by
    intro a b
    simp only [calculateStrokeWidth]
    exact le_max_left _ _
  have hcalc_hi : ∀ a b : Point ℝ, calculateStrokeWidth a b config ≤ config.maxWidth := by
    intro a b
    simp only [calculateStrokeWidth]
    exact max_le hmM (min_le_left _ _)
  refine ⟨?_, hcalc_lo current previous, hcalc_hi current previous, ?_, ?_, ?_, ?_, ?_⟩
  · simp only [calculateStrokeWidth, hypot]
    by_cases htilt : current.tiltX ≠ 0 ∨ current.tiltY ≠ 0
    · rw [if_pos htilt, if_pos htilt]
    · rw [if_neg htilt, if_neg htilt]
      congr 2 <;> ring
  · intro w hw
    simp only [renderSegmentWidths, List.mem_map, List.mem_range] at hw
    obtain ⟨i, hi, rfl⟩ := hw
    set T := min 8 (Nat.floor ((pts.length : ℝ) * 0.15)) with hT
    have hTpos : (0 : ℝ) < (T : ℝ) + 1 := by positivity
    have ha0 : ∀ u v : Point ℝ, 0 ≤ calculateStrokeWidth u v config :=
      fun u v => le_trans h0m (hcalc_lo u v)
    have hf3 := min_one_sq_bounds
      ((((pts.length - 3 - i : ℕ) : ℝ) + 2) / ((T : ℝ) + 1)) (by positivity)
    have hf2 := min_one_sq_bounds (((i : ℝ) + 2) / ((T : ℝ) + 1)) (by positivity)
    refine ⟨le_max_left _ _, ?_, le_max_left _ _, ?_⟩
    · apply max_le hmM
      split_ifs with h1 h2 h2
      · have hf1 := ratio_sq_bounds ((i : ℝ) + 1) ((T : ℝ) + 1) (by positivity)
          (by exact_mod_cast Nat.le_succ_of_le (Nat.succ_le_of_lt h2)) hTpos
        calc calculateStrokeWidth (pts.getD (i + 1) default) (pts.getD i default) config
              * (((i : ℝ) + 1) / ((T : ℝ) + 1)) ^ 2
              * (min 1 ((((pts.length - 3 - i : ℕ) : ℝ) + 2) / ((T : ℝ) + 1))) ^ 2
            ≤ calculateStrokeWidth (pts.getD (i + 1) default) (pts.getD i default) config
              * (((i : ℝ) + 1) / ((T : ℝ) + 1)) ^ 2 :=
              mul_le_of_le_one_right (mul_nonneg (ha0 _ _) hf1.1) hf3.2
          _ ≤ calculateStrokeWidth (pts.getD (i + 1) default) (pts.getD i default) config :=
              mul_le_of_le_one_right (ha0 _ _) hf1.2
          _ ≤ config.maxWidth := hcalc_hi _ _
      · calc calculateStrokeWidth (pts.getD (i + 1) default) (pts.getD i default) config
              * (min 1 ((((pts.length - 3 - i : ℕ) : ℝ) + 2) / ((T : ℝ) + 1))) ^ 2
            ≤ calculateStrokeWidth (pts.getD (i + 1) default) (pts.getD i default) config :=
              mul_le_of_le_one_right (ha0 _ _) hf3.2
          _ ≤ config.maxWidth := hcalc_hi _ _
      · have hf1 := ratio_sq_bounds ((i : ℝ) + 1) ((T : ℝ) + 1) (by positivity)
          (by exact_mod_cast Nat.le_succ_of_le (Nat.succ_le_of_lt h2)) hTpos
        calc calculateStrokeWidth (pts.getD (i + 1) default) (pts.getD i default) config
              * (((i : ℝ) + 1) / ((T : ℝ) + 1)) ^ 2
            ≤ calculateStrokeWidth (pts.getD (i + 1) default) (pts.getD i default) config :=
              mul_le_of_le_one_right (ha0 _ _) hf1.2
          _ ≤ config.maxWidth := hcalc_hi _ _
      · exact hcalc_hi _ _
    · apply max_le hmM
      split_ifs with h1 h2 h2
      · have hf4 := ratio_sq_bounds (((pts.length - 3 - i : ℕ) : ℝ) + 1) ((T : ℝ) + 1)
          (by positivity) (by exact_mod_cast Nat.le_succ_of_le (Nat.succ_le_of_lt h1)) hTpos
        calc calculateStrokeWidth (pts.getD (i + 2) default) (pts.getD (i + 1) default)
                config
              * (min 1 (((i : ℝ) + 2) / ((T : ℝ) + 1))) ^ 2
              * ((((pts.length - 3 - i : ℕ) : ℝ) + 1) / ((T : ℝ) + 1)) ^ 2
            ≤ calculateStrokeWidth (pts.getD (i + 2) default) (pts.getD (i + 1) default)
                config
              * (min 1 (((i : ℝ) + 2) / ((T : ℝ) + 1))) ^ 2 :=
              mul_le_of_le_one_right (mul_nonneg (ha0 _ _) hf2.1) hf4.2
          _ ≤ calculateStrokeWidth (pts.getD (i + 2) default) (pts.getD (i + 1) default)
                config :=
              mul_le_of_le_one_right (ha0 _ _) hf2.2
          _ ≤ config.maxWidth := hcalc_hi _ _
      · have hf4 := ratio_sq_bounds (((pts.length - 3 - i : ℕ) : ℝ) + 1) ((T : ℝ) + 1)
          (by positivity) (by exact_mod_cast Nat.le_succ_of_le (Nat.succ_le_of_lt h1)) hTpos
        calc calculateStrokeWidth (pts.getD (i + 2) default) (pts.getD (i + 1) default)
                config
              * ((((pts.length - 3 - i : ℕ) : ℝ) + 1) / ((T : ℝ) + 1)) ^ 2
            ≤ calculateStrokeWidth (pts.getD (i + 2) default) (pts.getD (i + 1) default)
                config :=
              mul_le_of_le_one_right (ha0 _ _) hf4.2
          _ ≤ config.maxWidth := hcalc_hi _ _
      · calc calculateStrokeWidth (pts.getD (i + 2) default) (pts.getD (i + 1) default)
                config
              * (min 1 (((i : ℝ) + 2) / ((T : ℝ) + 1))) ^ 2
            ≤ calculateStrokeWidth (pts.getD (i + 2) default) (pts.getD (i + 1) default)
                config :=
              mul_le_of_le_one_right (ha0 _ _) hf2.2
          _ ≤ config.maxWidth := hcalc_hi _ _
      · exact hcalc_hi _ _
  · simp only [shortStrokeWidth]
    exact le_max_left _ _
  · simp only [shortStrokeWidth]
    exact max_le hmM (min_le_left _ _)
  · simp only [dotWidth]
    exact le_max_left _ _
  · simp only [dotWidth]
    exact max_le hmM (min_le_left _ _)

end WidthClaims

section MoreWitnesses

open scoped Classical

/-- Witness for C4: the claimed clamp bounds at a concrete pair of
points and the default config. -/
theorem C4_witness :
    witnessConfigR.minWidth
        ≤ calculateStrokeWidth witnessPointR witnessPointR2 witnessConfigR ∧
      calculateStrokeWidth witnessPointR witnessPointR2 witnessConfigR
        ≤ witnessConfigR.maxWidth := by
  have h := C4_width_model witnessPointR witnessPointR2 witnessConfigR [] witnessPointR
    (by norm_num [witnessConfigR]) (by norm_num [witnessConfigR])
  exact ⟨h.2.1, h.2.2.1⟩

/-- Witness for C6: a committed empty-buffer stroke on a concrete
document leaves `canRedo` false. -/
theorem C6_witness : canRedo (endStroke witnessDocR 0) = false :=
  (C6_commit_clears_redo witnessDocR (UndoAction.move [] 0 0) inkBlack 0).2.2.2.2.1
    rfl (by norm_num [witnessDocR, isScratchGesture])

/-- Witness for C9: a non-scratch, non-snapped concrete `endStroke`
commits its captured points unchanged. -/
theorem C9_witness :
    (endStroke witnessDocR 0).strokes
      = witnessDocR.strokes
          ++ [{ points := witnessDocR.points, config := witnessDocR.config }] :=
  (C9_shape_snap_size_gates [] 0 witnessDocR).2.2 rfl
    (by norm_num [witnessDocR, isScratchGesture])
    (by norm_num [witnessDocR, detectAndSnapShape])

end MoreWitnesses

section ScaleLemmas

open scoped Classical

theorem hypot_zero_right (x : ℝ) : hypot x 0 = |x| := by
  simp only [hypot, mul_zero, add_zero]
  exact Real.sqrt_mul_self_eq_abs x

theorem hypot_mul_left (c x y : ℝ) (hc : 0 ≤ c) :
    hypot (c * x) (c * y) = c * hypot x y := by
  unfold hypot
  have h1 : c * x * (c * x) + c * y * (c * y) = c ^ 2 * (x * x + y * y) := by ring
  rw [h1, Real.sqrt_mul (sq_nonneg c), Real.sqrt_sq hc]

theorem foldl_add_hypot (l : List (ℝ × ℝ)) (a : ℝ) :
    l.foldl (fun acc d => acc + hypot d.1 d.2) a
      = a + (l.map (fun d => hypot d.1 d.2)).sum := by
  induction l generalizing a with
  | nil => simp
  | cons d t ih =>
    simp only [List.foldl_cons, List.map_cons, List.sum_cons, ih]
    ring

theorem listMin_map_mul (c : ℝ) (hc : 0 ≤ c) (l : List ℝ) :
    listMin (l.map (fun x => c * x)) = c * listMin l := by
  cases l with
  | nil => simp [listMin]
  | cons x xs =>
    simp only [List.map_cons, listMin]
    induction xs generalizing x with
    | nil => simp
    | cons y ys ih =>
      simp only [List.map_cons, List.foldl_cons]
      rw [show min (c * x) (c * y) = c * min x y from (mul_min_of_nonneg x y hc).symm]
      exact ih (min x y)

theorem listMax_map_mul (c : ℝ) (hc : 0 ≤ c) (l : List ℝ) :
    listMax (l.map (fun x => c * x)) = c * listMax l := by
  cases l with
  | nil => simp [listMax]
  | cons x xs =>
    simp only [List.map_cons, listMax]
    induction xs generalizing x with
    | nil => simp
    | cons y ys ih =>
      simp only [List.map_cons, List.foldl_cons]
      rw [show max (c * x) (c * y) = c * max x y from (mul_max_of_nonneg x y hc).symm]
      exact ih (max x y)

theorem strokeDeltas_scalePoints (c : ℝ) (pts : List (Point ℝ)) :
    strokeDeltas (scalePoints c pts)
      = (strokeDeltas pts).map (fun d => (c * d.1, c * d.2)) := by
  unfold strokeDeltas scalePoints
  rw [← List.map_tail, List.zip_map, List.map_map, List.map_map]
  apply List.map_congr_left
  intro pq _
  simp only [Function.comp_apply, Prod.map]
  rw [Prod.mk.injEq]
  constructor <;> ring

theorem reversalFold_map_mul (c : ℝ) (hc : 0 < c) :
    ∀ (dxs : List ℝ) (lastDir : Int) (cnt : Nat),
      (∀ dx ∈ dxs, (|dx| > 2 ↔ |c * dx| > 2)) →
      reversalFold (dxs.map (fun dx => c * dx)) lastDir cnt
        = reversalFold dxs lastDir cnt := by
  intro dxs
  induction dxs with
  | nil => intro _ _ _; rfl
  | cons dx rest ih =>
    intro lastDir cnt hsig
    have hrest : ∀ d ∈ rest, (|d| > 2 ↔ |c * d| > 2) :=
      fun d hd => hsig d (List.mem_cons_of_mem _ hd)
    have hhd := hsig dx (List.mem_cons_self dx rest)
    simp only [List.map_cons, reversalFold]
    by_cases habs : |dx| > 2
    · rw [if_pos (hhd.mp habs), if_pos habs]
      have hdir : ((if c * dx > 0 then 1 else -1) : Int)
          = (if dx > 0 then 1 else -1) := by
        by_cases hpos : dx > 0
        · rw [if_pos hpos, if_pos (mul_pos hc hpos)]
        · rw [if_neg hpos, if_neg (fun hcd => hpos ((mul_pos_iff_of_pos_left hc).mp hcd))]
      rw [hdir]
      exact ih _ _ hrest
    · rw [if_neg (fun hcd => habs (hhd.mpr hcd)), if_neg habs]
      exact ih _ _ hrest

theorem reversalCount_scalePoints (c : ℝ) (hc : 0 < c) (pts : List (Point ℝ))
    (hsig : ∀ d ∈ strokeDeltas pts, (|d.1| > 2 ↔ |c * d.1| > 2)) :
    reversalCount (scalePoints c pts) = reversalCount pts := by
  unfold reversalCount
  rw [strokeDeltas_scalePoints, List.map_map]
  rw [show ((strokeDeltas pts).map
      (Prod.fst ∘ fun d : ℝ × ℝ => (c * d.1, c * d.2)))
      = ((strokeDeltas pts).map Prod.fst).map (fun x => c * x) from by
    rw [List.map_map]
    rfl]
  exact reversalFold_map_mul c hc _ 0 0 (fun dx hdx => by
    obtain ⟨d, hd, rfl⟩ := List.mem_map.mp hdx
    exact hsig d hd)

theorem totalTravel_scalePoints (c : ℝ) (hc : 0 ≤ c) (pts : List (Point ℝ)) :
    totalTravel (scalePoints c pts) = c * totalTravel pts := by
  unfold totalTravel
  rw [strokeDeltas_scalePoints, foldl_add_hypot, foldl_add_hypot, List.map_map]
  simp only [zero_add]
  rw [show ((fun d : ℝ × ℝ => hypot d.1 d.2) ∘ fun d : ℝ × ℝ => (c * d.1, c * d.2))
      = fun d : ℝ × ℝ => c * hypot d.1 d.2 from funext fun d => by
    simp only [Function.comp_apply]
    exact hypot_mul_left c d.1 d.2 hc]
  exact List.sum_map_mul_left _ _ _

theorem bboxDiagOf_scalePoints (c : ℝ) (hc : 0 ≤ c) (pts : List (Point ℝ)) :
    bboxDiagOf (scalePoints c pts) = c * bboxDiagOf pts := by
  unfold bboxDiagOf
  have hx : (scalePoints c pts).map Point.x
      = (pts.map Point.x).map (fun x => c * x) := by
    unfold scalePoints
    rw [List.map_map, List.map_map]
    rfl
  have hy : (scalePoints c pts).map Point.y
      = (pts.map Point.y).map (fun x => c * x) := by
    unfold scalePoints
    rw [List.map_map, List.map_map]
    rfl
  rw [hx, hy, listMin_map_mul c hc, listMax_map_mul c hc, listMin_map_mul c hc,
    listMax_map_mul c hc, ← mul_sub, ← mul_sub, hypot_mul_left _ _ _ hc]

end ScaleLemmas

section ScratchEval

open scoped Classical

theorem scratchPts_deltas : strokeDeltas scratchPts
    = [((3 : ℝ), (0 : ℝ)), (-3, 0), (3, 0), (-3, 0), (3, 0), (-3, 0), (3, 0),
       (-3, 0), (3, 0), (-3, 0), (3, 0), (-3, 0), (3, 0), (-3, 0)] := by
  norm_num [strokeDeltas, scratchPts, zigPoint]

theorem scratchPts_reversals : reversalCount scratchPts = 13 := by
  rw [reversalCount, scratchPts_deltas]
  norm_num [reversalFold]

theorem scratchPts_travel : totalTravel scratchPts = 42 := by
  rw [totalTravel, scratchPts_deltas]
  norm_num [hypot_zero_right]

theorem scratchPts_diag : bboxDiagOf scratchPts = 3 := by
  have h3 : bboxDiagOf scratchPts = hypot 3 0 := by
    norm_num [bboxDiagOf, scratchPts, zigPoint, listMin, listMax, min_def, max_def]
  rw [h3, hypot_zero_right]
  norm_num

theorem scratchPts_isScratch : isScratchGesture scratchPts := by
  refine ⟨by norm_num [scratchPts], ?_, ?_⟩
  · rw [scratchPts_reversals]
    norm_num
  · rw [scratchPts_travel, scratchPts_diag]
    norm_num

theorem scaledScratch_not_scratch :
    ¬ isScratchGesture (scalePoints (1 / 2) scratchPts) := by
  intro h
  obtain ⟨-, h4, -⟩ := h
  rw [reversalCount, strokeDeltas_scalePoints, scratchPts_deltas] at h4
  norm_num [reversalFold, abs_div] at h4

end ScratchEval

section ScratchClaims

open scoped Classical

/-- C7 counterexample.  Scratch classification is NOT scale-invariant:
the concrete 15-point zig-zag with steps of |Δx| = 3 classifies as a
scratch, but scaling all coordinates and timestamps by 1/2 puts every
step below the fixed 2-px significance threshold of the reversal
counter, so the scaled trajectory does not classify as a scratch. -/
theorem C7_counterexample :
    isScratchGesture scratchPts ∧
      ¬ isScratchGesture (scalePoints (1 / 2) scratchPts) :=
  ⟨scratchPts_isScratch, scaledScratch_not_scratch⟩

/-- C7 (amended).  Scratch classification is invariant under scaling
the coordinates and timestamps by `c > 0` provided the scaling does
not move any step's `|Δx|` across the fixed 2-px significance
threshold (the length test and the travel/diagonal ratio test are
scale-invariant on their own; only the reversal counter's absolute
threshold is not). -/
theorem C7_scale_invariance_amended (pts : List (Point ℝ)) (c : ℝ) (hc : 0 < c)
    (hsig : ∀ d ∈ strokeDeltas pts, (|d.1| > 2 ↔ |c * d.1| > 2)) :
    isScratchGesture (scalePoints c pts) ↔ isScratchGesture pts := by
  unfold isScratchGesture
  have hlen : (scalePoints c pts).length = pts.length := by
    unfold scalePoints
    exact List.length_map _ _
  rw [hlen, reversalCount_scalePoints c hc pts hsig,
    totalTravel_scalePoints c hc.le pts, bboxDiagOf_scalePoints c hc.le pts]
  refine and_congr Iff.rfl (and_congr Iff.rfl ?_)
  rw [mul_assoc]
  exact mul_lt_mul_left hc

/-- Witness for the amended C7: the zig-zag under the (threshold
preserving) scale factor 1. -/
theorem C7_amended_witness :
    isScratchGesture (scalePoints 1 scratchPts) ↔ isScratchGesture scratchPts :=
  C7_scale_invariance_amended scratchPts 1 (by norm_num)
    (fun d _ => by rw [one_mul])

/-- Witness for C5: ending the concrete zig-zag scratch removes
exactly the strokes under the inflated scratch box and commits
nothing. -/
theorem C5_witness :
    (endStroke scratchDocR 0).strokes
      = scratchDocR.strokes.filter
          (fun st => ¬ strokeHitByScratch scratchDocR.points st) :=
  (C5_scratch_to_erase scratchDocR 0 rfl scratchPts_isScratch).1

end ScratchClaims

end Nuance
